import Mathlib

/-!
Verification of the github-ci workflow linter/upgrader.

Shallow embedding of the Go sources of `github.com/reugn/github-ci`.
Strings are modelled as `List Char` (one entry per character; the inputs the
program manipulates are ASCII, where Go byte indexing and character indexing
coincide). Go maps are modelled as association lists with
first-match lookup, which matches the observable overwrite semantics of map
assignment. Fallible functions return `Option`/`Except`. Remote API
interaction is modelled by passing the outcome of the network operation as an
explicit oracle function and counting the calls the code under analysis makes.
-/

namespace GithubCI

/-- A Go string, modelled as its list of characters. -/
abbrev Str := List Char

/-- Convert a Lean string literal to the `Str` model. -/
def str (s : String) : Str := s.data

/- ===================== internal/actions/cache_key.go ===================== -/

/-- `VersionKey` from cache_key.go: a cache key for version lookups. -/
structure VersionKey where
  owner : Str
  repo : Str
  ref : Str
  pattern : Str
  deriving DecidableEq, Repr

/-- `NewConstrainedKey` from cache_key.go. -/
def NewConstrainedKey (owner repo ref pattern : Str) : VersionKey :=
  { owner := owner, repo := repo, ref := ref, pattern := pattern }

/-- `NewUnconstrainedKey` from cache_key.go: ref and pattern are empty. -/
def NewUnconstrainedKey (owner repo : Str) : VersionKey :=
  { owner := owner, repo := repo, ref := [], pattern := [] }

/-- `VersionKey.IsConstrained` from cache_key.go. -/
def VersionKey.IsConstrained (k : VersionKey) : Bool :=
  k.ref ≠ [] || k.pattern ≠ []

/-- `VersionKey.String` from cache_key.go:
`owner/repo` for unconstrained keys, `owner/repo:ref:pattern` otherwise. -/
def VersionKey.keyString (k : VersionKey) : Str :=
  if ¬ k.IsConstrained then
    k.owner ++ str "/" ++ k.repo
  else
    k.owner ++ str "/" ++ k.repo ++ str ":" ++ k.ref ++ str ":" ++ k.pattern

/- ===================== internal/actions (parser.go bundle) ===================== -/

/-- `VersionResult`, a cached outcome. Modelled from the spec: the struct
itself is not under src/ (only its tests and callers are); per the spec it
holds the resolved tag name, resolved commit hash, and an error value, with
success carrying tag+hash and nil error and failure carrying a non-nil
error. Errors are modelled by their message. -/
structure VersionResult where
  tag : Str
  hash : Str
  err : Option Str
  deriving DecidableEq, Repr

/-- `NewVersionResult`. Modelled from the spec: plain constructor. -/
def NewVersionResult (tag hash : Str) (err : Option Str) : VersionResult :=
  { tag := tag, hash := hash, err := err }

/-- First-match lookup in an association list (observable behavior of a Go
map read). -/
def lookupA (l : List (Str × VersionResult)) (k : Str) : Option VersionResult :=
  match l with
  | [] => none
  | (k', v) :: rest => if k' = k then some v else lookupA rest k

/-- `Cache` from the actions package: two maps (constrained and
unconstrained lookup spaces) plus hit/miss counters (int64 in Go). -/
structure Cache where
  constrained : List (Str × VersionResult)
  unconstrained : List (Str × VersionResult)
  hits : Int
  misses : Int
  deriving Repr

/-- `NewCache`: empty maps, zero counters. -/
def NewCache : Cache :=
  { constrained := [], unconstrained := [], hits := 0, misses := 0 }

/-- `Cache.GetConstrained`: on a hit increments `hits` and returns the cached
result; on a miss returns `none` and leaves the cache unchanged. -/
def GetConstrained (c : Cache) (k : VersionKey) : Option VersionResult × Cache :=
  match lookupA c.constrained k.keyString with
  | some cached => (some cached, { c with hits := c.hits + 1 })
  | none => (none, c)

/-- `Cache.SetConstrained`: stores the result and increments `misses`
(a set means an API call was made). -/
def SetConstrained (c : Cache) (k : VersionKey) (result : VersionResult) : Cache :=
  { c with constrained := (k.keyString, result) :: c.constrained,
           misses := c.misses + 1 }

/-- `Cache.GetUnconstrained`: like `GetConstrained` on the unconstrained map. -/
def GetUnconstrained (c : Cache) (k : VersionKey) : Option VersionResult × Cache :=
  match lookupA c.unconstrained k.keyString with
  | some cached => (some cached, { c with hits := c.hits + 1 })
  | none => (none, c)

/-- `Cache.SetUnconstrained`: stores the result and increments `misses`. -/
def SetUnconstrained (c : Cache) (k : VersionKey) (result : VersionResult) : Cache :=
  { c with unconstrained := (k.keyString, result) :: c.unconstrained,
           misses := c.misses + 1 }

/-- `Cache.Clear`: clears both maps and zeroes both counters. -/
def Clear (_ : Cache) : Cache := NewCache

/-- `Cache.Stats`: returns (hits, misses). -/
def Stats (c : Cache) : Int × Int := (c.hits, c.misses)

/-- One cache operation, for reasoning about every reachable cache state. -/
inductive CacheOp where
  | setC (k : VersionKey) (r : VersionResult)
  | setU (k : VersionKey) (r : VersionResult)
  | getC (k : VersionKey)
  | getU (k : VersionKey)
  | clear
  deriving Repr

/-- Apply one cache operation to a cache state. -/
def applyOp (c : Cache) : CacheOp → Cache
  | .setC k r => SetConstrained c k r
  | .setU k r => SetUnconstrained c k r
  | .getC k => (GetConstrained c k).2
  | .getU k => (GetUnconstrained c k).2
  | .clear => Clear c

/-- The cache state reached from the empty cache by a sequence of operations. -/
def applyOps (ops : List CacheOp) : Cache :=
  ops.foldl applyOp NewCache

/-- Whether a cache operation stores a result. -/
def CacheOp.isSet : CacheOp → Bool
  | .setC _ _ => true
  | .setU _ _ => true
  | _ => false

/-- Tag name plus commit hash, as accumulated by `fetchMatchingTags`. -/
structure TagInfo where
  tag : Str
  hash : Str
  deriving DecidableEq, Repr

/-- `Client.GetLatestVersion` from the actions client: constrained lookup of
the latest compatible tag, cached by `NewConstrainedKey`. The network
interaction (`fetchMatchingTags`, i.e. tag pagination filtered by the version
pattern) is abstracted as the oracle `fetch`, and the semantic version
comparator `version.Compare` as `cmp`; the third component of the result
counts the fetches performed (0 on a cache hit, 1 on a miss). -/
def GetLatestVersion (fetch : Str → Str → Str → Except Str (List TagInfo))
    (cmp : Str → Str → Int) (c : Cache) (owner repo currentVersion versionPattern : Str) :
    (Str × Str × Option Str) × Cache × Nat :=
  let key := NewConstrainedKey owner repo currentVersion versionPattern
  let g := GetConstrained c key
  match g.1 with
  | some result => ((result.tag, result.hash, result.err), g.2, 0)
  | none =>
    match fetch owner repo versionPattern with
    | .error err => ((([], [], some err) : Str × Str × Option Str),
        SetConstrained g.2 key (NewVersionResult [] [] (some err)), 1)
    | .ok tags =>
      match tags with
      | [] =>
        let err := str "no compatible tags found for pattern " ++ versionPattern
        ((([], [], some err) : Str × Str × Option Str),
          SetConstrained g.2 key (NewVersionResult [] [] (some err)), 1)
      | t0 :: rest =>
        let latest := rest.foldl (fun latest t => if cmp t.tag latest.tag > 0 then t else latest) t0
        ((latest.tag, latest.hash, (none : Option Str)),
          SetConstrained g.2 key (NewVersionResult latest.tag latest.hash none), 1)

/- ===================== cache lemmas ===================== -/

theorem lookupA_mem {l : List (Str × VersionResult)} {k : Str} {v : VersionResult}
    (h : lookupA l k = some v) : (k, v) ∈ l := by
  induction l with
  | nil => simp [lookupA] at h
  | cons hd tl ih =>
    obtain ⟨k', v'⟩ := hd
    by_cases hk : k' = k
    · subst hk
      simp [lookupA] at h
      subst h
      exact List.mem_cons_self _ _
    · simp [lookupA, hk] at h
      exact List.mem_cons_of_mem _ (ih h)

theorem getConstrained_snd_constrained (c : Cache) (k : VersionKey) :
    (GetConstrained c k).2.constrained = c.constrained := by
  unfold GetConstrained
  cases lookupA c.constrained k.keyString <;> rfl

theorem getConstrained_snd_unconstrained (c : Cache) (k : VersionKey) :
    (GetConstrained c k).2.unconstrained = c.unconstrained := by
  unfold GetConstrained
  cases lookupA c.constrained k.keyString <;> rfl

theorem getUnconstrained_snd_constrained (c : Cache) (k : VersionKey) :
    (GetUnconstrained c k).2.constrained = c.constrained := by
  unfold GetUnconstrained
  cases lookupA c.unconstrained k.keyString <;> rfl

theorem getUnconstrained_snd_unconstrained (c : Cache) (k : VersionKey) :
    (GetUnconstrained c k).2.unconstrained = c.unconstrained := by
  unfold GetUnconstrained
  cases lookupA c.unconstrained k.keyString <;> rfl

/-- Provenance of entries in the constrained map: every entry comes from the
initial state or from some `setC` operation in the sequence. -/
theorem constrained_provenance (ops : List CacheOp) (c : Cache)
    (p : Str × VersionResult) (hp : p ∈ (ops.foldl applyOp c).constrained) :
    p ∈ c.constrained ∨ ∃ k, CacheOp.setC k p.2 ∈ ops ∧ k.keyString = p.1 := by
  induction ops generalizing c with
  | nil => exact Or.inl hp
  | cons op ops ih =>
    rw [List.foldl_cons] at hp
    rcases ih (applyOp c op) hp with hmem | ⟨k, hk, hks⟩
    · cases op with
      | setC k r =>
        simp only [applyOp, SetConstrained] at hmem
        rcases List.mem_cons.mp hmem with heq | hmem'
        · subst heq
          exact Or.inr ⟨k, List.mem_cons_self _ _, rfl⟩
        · exact Or.inl hmem'
      | setU k r =>
        simp only [applyOp, SetUnconstrained] at hmem
        exact Or.inl hmem
      | getC k =>
        rw [applyOp, getConstrained_snd_constrained] at hmem
        exact Or.inl hmem
      | getU k =>
        rw [applyOp, getUnconstrained_snd_constrained] at hmem
        exact Or.inl hmem
      | clear =>
        simp [applyOp, Clear, NewCache] at hmem
    · exact Or.inr ⟨k, List.mem_cons_of_mem _ hk, hks⟩

/-- Provenance of entries in the unconstrained map. -/
theorem unconstrained_provenance (ops : List CacheOp) (c : Cache)
    (p : Str × VersionResult) (hp : p ∈ (ops.foldl applyOp c).unconstrained) :
    p ∈ c.unconstrained ∨ ∃ k, CacheOp.setU k p.2 ∈ ops ∧ k.keyString = p.1 := by
  induction ops generalizing c with
  | nil => exact Or.inl hp
  | cons op ops ih =>
    rw [List.foldl_cons] at hp
    rcases ih (applyOp c op) hp with hmem | ⟨k, hk, hks⟩
    · cases op with
      | setC k r =>
        simp only [applyOp, SetConstrained] at hmem
        exact Or.inl hmem
      | setU k r =>
        simp only [applyOp, SetUnconstrained] at hmem
        rcases List.mem_cons.mp hmem with heq | hmem'
        · subst heq
          exact Or.inr ⟨k, List.mem_cons_self _ _, rfl⟩
        · exact Or.inl hmem'
      | getC k =>
        rw [applyOp, getConstrained_snd_unconstrained] at hmem
        exact Or.inl hmem
      | getU k =>
        rw [applyOp, getUnconstrained_snd_unconstrained] at hmem
        exact Or.inl hmem
      | clear =>
        simp [applyOp, Clear, NewCache] at hmem
    · exact Or.inr ⟨k, List.mem_cons_of_mem _ hk, hks⟩

theorem getConstrained_some_lookup {c : Cache} {k : VersionKey} {r : VersionResult}
    (h : (GetConstrained c k).1 = some r) :
    lookupA c.constrained k.keyString = some r := by
  unfold GetConstrained at h
  cases hc : lookupA c.constrained k.keyString <;> rw [hc] at h <;> simp_all

theorem getUnconstrained_some_lookup {c : Cache} {k : VersionKey} {r : VersionResult}
    (h : (GetUnconstrained c k).1 = some r) :
    lookupA c.unconstrained k.keyString = some r := by
  unfold GetUnconstrained at h
  cases hc : lookupA c.unconstrained k.keyString <;> rw [hc] at h <;> simp_all

/-- C2: for every cache state reachable by any sequence of
SetConstrained/SetUnconstrained/GetConstrained/GetUnconstrained/Clear
operations, any result returned by a constrained query was stored by a
`SetConstrained` with the same key string (so never by a `SetUnconstrained`
for the same repository), and any result returned by an unconstrained query
was stored by a `SetUnconstrained`: the two lookup spaces are never
substituted for each other. -/
theorem constrained_unconstrained_never_substituted :
    ∀ (ops : List CacheOp) (k : VersionKey) (r : VersionResult),
      ((GetConstrained (applyOps ops) k).1 = some r →
        ∃ k', CacheOp.setC k' r ∈ ops ∧ k'.keyString = k.keyString) ∧
      ((GetUnconstrained (applyOps ops) k).1 = some r →
        ∃ k', CacheOp.setU k' r ∈ ops ∧ k'.keyString = k.keyString) := by
  intro ops k r
  constructor
  · intro h
    have hmem := lookupA_mem (getConstrained_some_lookup h)
    rcases constrained_provenance ops NewCache _ hmem with h0 | ⟨k', hk', hks⟩
    · simp [NewCache] at h0
    · exact ⟨k', hk', hks⟩
  · intro h
    have hmem := lookupA_mem (getUnconstrained_some_lookup h)
    rcases unconstrained_provenance ops NewCache _ hmem with h0 | ⟨k', hk', hks⟩
    · simp [NewCache] at h0
    · exact ⟨k', hk', hks⟩

/-- A sample constrained key. -/
def wKey : VersionKey :=
  NewConstrainedKey (str "actions") (str "checkout") (str "v2.0.0") (str "^2.0.0")

/-- A sample successful version result. -/
def wRes : VersionResult := NewVersionResult (str "v2.5.0") (str "abc123") none

/-- Witness for C2: after a single `SetConstrained`, the constrained query
answer is traced back to that very operation. -/
theorem constrained_unconstrained_never_substituted_witness :
    ∃ k', CacheOp.setC k' wRes ∈ [CacheOp.setC wKey wRes] ∧
      k'.keyString = wKey.keyString :=
  (constrained_unconstrained_never_substituted [CacheOp.setC wKey wRes] wKey wRes).1
    (by decide)

/-- Empty maps are preserved by any sequence of operations containing no Set. -/
theorem noSet_preserves_empty (ops : List CacheOp) (c : Cache)
    (h1 : c.constrained = []) (h2 : c.unconstrained = [])
    (h : ∀ op ∈ ops, op.isSet = false) :
    (ops.foldl applyOp c).constrained = [] ∧ (ops.foldl applyOp c).unconstrained = [] := by
  induction ops generalizing c with
  | nil => exact ⟨h1, h2⟩
  | cons op ops ih =>
    rw [List.foldl_cons]
    have hops : ∀ op ∈ ops, op.isSet = false := fun o ho => h o (List.mem_cons_of_mem _ ho)
    cases op with
    | setC k r => simp [CacheOp.isSet] at h
    | setU k r => simp [CacheOp.isSet] at h
    | getC k =>
      exact ih _ (by rw [applyOp, getConstrained_snd_constrained]; exact h1)
        (by rw [applyOp, getConstrained_snd_unconstrained]; exact h2) hops
    | getU k =>
      exact ih _ (by rw [applyOp, getUnconstrained_snd_constrained]; exact h1)
        (by rw [applyOp, getUnconstrained_snd_unconstrained]; exact h2) hops
    | clear => exact ih _ rfl rfl hops

/-- C10: `Clear` restores the initial state: zero stats, and every
constrained or unconstrained lookup misses until a new Set is performed
(i.e. after any further sequence of non-Set operations). -/
theorem clear_resets_cache :
    ∀ (c : Cache) (ops : List CacheOp) (k : VersionKey),
      (∀ op ∈ ops, op.isSet = false) →
      Stats (Clear c) = (0, 0) ∧
      (GetConstrained (ops.foldl applyOp (Clear c)) k).1 = none ∧
      (GetUnconstrained (ops.foldl applyOp (Clear c)) k).1 = none := by
  intro c ops k h
  obtain ⟨h1, h2⟩ := noSet_preserves_empty ops (Clear c) rfl rfl h
  refine ⟨rfl, ?_, ?_⟩
  · unfold GetConstrained
    rw [h1]
    rfl
  · unfold GetUnconstrained
    rw [h2]
    rfl

/-- Witness for C10: clearing a populated cache with a subsequent lookup. -/
theorem clear_resets_cache_witness :
    Stats (Clear (SetConstrained NewCache wKey wRes)) = (0, 0) ∧
    (GetConstrained ([CacheOp.getC wKey].foldl applyOp
      (Clear (SetConstrained NewCache wKey wRes))) wKey).1 = none ∧
    (GetUnconstrained ([CacheOp.getC wKey].foldl applyOp
      (Clear (SetConstrained NewCache wKey wRes))) wKey).1 = none :=
  clear_resets_cache (SetConstrained NewCache wKey wRes) [CacheOp.getC wKey] wKey
    (by decide)

/- ===================== C1: constrained lookup caching ===================== -/

theorem keyString_unconstrained_form (k : VersionKey) (h1 : k.ref = []) (h2 : k.pattern = []) :
    k.keyString = k.owner ++ '/' :: k.repo := by
  unfold VersionKey.keyString VersionKey.IsConstrained
  rw [if_pos]
  · simp [str]
  · simp [h1, h2]

theorem keyString_constrained_form (k : VersionKey) (h : ¬ (k.ref = [] ∧ k.pattern = [])) :
    k.keyString = k.owner ++ '/' :: (k.repo ++ ':' :: (k.ref ++ ':' :: k.pattern)) := by
  unfold VersionKey.keyString VersionKey.IsConstrained
  rw [if_neg]
  · simp [str]
  · simp only [ne_eq, Bool.or_eq_true, decide_eq_true_eq, not_not]
    exact not_and_or.mp h

/-- Changing exactly one of the four key components yields a different
cache-key string. -/
theorem keyString_ne_oneChange (o r cv vp o' r' cv' vp' : Str)
    (h : (o' ≠ o ∧ r' = r ∧ cv' = cv ∧ vp' = vp) ∨
         (o' = o ∧ r' ≠ r ∧ cv' = cv ∧ vp' = vp) ∨
         (o' = o ∧ r' = r ∧ cv' ≠ cv ∧ vp' = vp) ∨
         (o' = o ∧ r' = r ∧ cv' = cv ∧ vp' ≠ vp)) :
    (NewConstrainedKey o' r' cv' vp').keyString ≠ (NewConstrainedKey o r cv vp).keyString := by
  intro heq
  rcases h with ⟨hne, h1, h2, h3⟩ | ⟨h1, hne, h2, h3⟩ | ⟨h1, h2, hne, h3⟩ | ⟨h1, h2, h3, hne⟩
  · -- owner changed: both keys have the same form and the same suffix
    rw [h1, h2, h3] at heq
    by_cases hc : cv = [] ∧ vp = []
    · rw [keyString_unconstrained_form (NewConstrainedKey o' r cv vp) hc.1 hc.2,
        keyString_unconstrained_form (NewConstrainedKey o r cv vp) hc.1 hc.2] at heq
      simp only [NewConstrainedKey] at heq
      have hlen : o'.length = o.length := by
        have := congrArg List.length heq
        simp at this
        omega
      exact hne (List.append_inj heq hlen).1
    · rw [keyString_constrained_form (NewConstrainedKey o' r cv vp) hc,
        keyString_constrained_form (NewConstrainedKey o r cv vp) hc] at heq
      simp only [NewConstrainedKey] at heq
      have hlen : o'.length = o.length := by
        have := congrArg List.length heq
        simp at this
        omega
      exact hne (List.append_inj heq hlen).1
  · -- repo changed
    rw [h1, h2, h3] at heq
    by_cases hc : cv = [] ∧ vp = []
    · rw [keyString_unconstrained_form (NewConstrainedKey o r' cv vp) hc.1 hc.2,
        keyString_unconstrained_form (NewConstrainedKey o r cv vp) hc.1 hc.2] at heq
      simp only [NewConstrainedKey] at heq
      have h4 := List.append_cancel_left heq
      simp only [List.cons.injEq, true_and] at h4
      exact hne h4
    · rw [keyString_constrained_form (NewConstrainedKey o r' cv vp) hc,
        keyString_constrained_form (NewConstrainedKey o r cv vp) hc] at heq
      simp only [NewConstrainedKey] at heq
      have h4 := List.append_cancel_left heq
      simp only [List.cons.injEq, true_and] at h4
      exact hne (List.append_cancel_right h4)
  · -- currentVersion changed
    rw [h1, h2, h3] at heq
    by_cases hk : cv = [] ∧ vp = [] <;> by_cases hk' : cv' = [] ∧ vp = []
    · exact hne (hk'.1.trans hk.1.symm)
    · rw [keyString_constrained_form (NewConstrainedKey o r cv' vp) hk',
        keyString_unconstrained_form (NewConstrainedKey o r cv vp) hk.1 hk.2] at heq
      simp only [NewConstrainedKey] at heq
      have h4 := List.append_cancel_left heq
      simp only [List.cons.injEq, true_and] at h4
      have := congrArg List.length h4
      simp at this
    · rw [keyString_unconstrained_form (NewConstrainedKey o r cv' vp) hk'.1 hk'.2,
        keyString_constrained_form (NewConstrainedKey o r cv vp) hk] at heq
      simp only [NewConstrainedKey] at heq
      have h4 := List.append_cancel_left heq
      simp only [List.cons.injEq, true_and] at h4
      have := congrArg List.length h4
      simp at this
    · rw [keyString_constrained_form (NewConstrainedKey o r cv' vp) hk',
        keyString_constrained_form (NewConstrainedKey o r cv vp) hk] at heq
      simp only [NewConstrainedKey] at heq
      have h4 := List.append_cancel_left heq
      simp only [List.cons.injEq, true_and] at h4
      have h5 := List.append_cancel_left h4
      simp only [List.cons.injEq, true_and] at h5
      have hlen : cv'.length = cv.length := by
        have := congrArg List.length h5
        simp at this
        omega
      exact hne (List.append_inj h5 hlen).1
  · -- versionPattern changed
    rw [h1, h2, h3] at heq
    by_cases hk : cv = [] ∧ vp = [] <;> by_cases hk' : cv = [] ∧ vp' = []
    · exact hne (hk'.2.trans hk.2.symm)
    · rw [keyString_constrained_form (NewConstrainedKey o r cv vp') hk',
        keyString_unconstrained_form (NewConstrainedKey o r cv vp) hk.1 hk.2] at heq
      simp only [NewConstrainedKey] at heq
      have h4 := List.append_cancel_left heq
      simp only [List.cons.injEq, true_and] at h4
      have := congrArg List.length h4
      simp at this
    · rw [keyString_unconstrained_form (NewConstrainedKey o r cv vp') hk'.1 hk'.2,
        keyString_constrained_form (NewConstrainedKey o r cv vp) hk] at heq
      simp only [NewConstrainedKey] at heq
      have h4 := List.append_cancel_left heq
      simp only [List.cons.injEq, true_and] at h4
      have := congrArg List.length h4
      simp at this
    · rw [keyString_constrained_form (NewConstrainedKey o r cv vp') hk',
        keyString_constrained_form (NewConstrainedKey o r cv vp) hk] at heq
      simp only [NewConstrainedKey] at heq
      have h4 := List.append_cancel_left heq
      simp only [List.cons.injEq, true_and] at h4
      have h5 := List.append_cancel_left h4
      simp only [List.cons.injEq, true_and] at h5
      have h6 := List.append_cancel_left h5
      simp only [List.cons.injEq, true_and] at h6
      exact hne h6

/-- On a cache hit, `GetLatestVersion` answers from the cache: no fetch,
hits incremented, the cache otherwise unchanged. -/
theorem getLatestVersion_hit (fetch : Str → Str → Str → Except Str (List TagInfo))
    (cmp : Str → Str → Int) (c : Cache) (o r cv vp : Str) (res : VersionResult)
    (h : lookupA c.constrained (NewConstrainedKey o r cv vp).keyString = some res) :
    GetLatestVersion fetch cmp c o r cv vp =
      ((res.tag, res.hash, res.err), { c with hits := c.hits + 1 }, 0) := by
  unfold GetLatestVersion GetConstrained
  simp only [h]

/-- On a cache miss, `GetLatestVersion` performs exactly one fetch, stores
the outcome via `SetConstrained`, and returns the stored triple. -/
theorem getLatestVersion_miss (fetch : Str → Str → Str → Except Str (List TagInfo))
    (cmp : Str → Str → Int) (c : Cache) (o r cv vp : Str)
    (h : lookupA c.constrained (NewConstrainedKey o r cv vp).keyString = none) :
    ∃ res : VersionResult,
      GetLatestVersion fetch cmp c o r cv vp =
        ((res.tag, res.hash, res.err), SetConstrained c (NewConstrainedKey o r cv vp) res, 1) := by
  unfold GetLatestVersion GetConstrained
  simp only [h]
  cases hf : fetch o r vp with
  | error e => exact ⟨NewVersionResult [] [] (some e), rfl⟩
  | ok tags =>
    cases tags with
    | nil => exact ⟨NewVersionResult [] [] (some (str "no compatible tags found for pattern " ++ vp)), rfl⟩
    | cons t0 rest =>
      refine ⟨NewVersionResult
          (List.foldl (fun (latest t : TagInfo) =>
            if cmp t.tag latest.tag > 0 then t else latest) t0 rest).tag
          (List.foldl (fun (latest t : TagInfo) =>
            if cmp t.tag latest.tag > 0 then t else latest) t0 rest).hash
          none, ?_⟩
      rfl

/-- The per-call cache-state transformer of a fixed constrained lookup. -/
def glvStep (fetch : Str → Str → Str → Except Str (List TagInfo))
    (cmp : Str → Str → Int) (o r cv vp : Str) (c : Cache) : Cache :=
  (GetLatestVersion fetch cmp c o r cv vp).2.1

/-- C1: starting from a cache with an empty constrained map, (a) the first
constrained lookup performs exactly one resolution and records a miss via
`SetConstrained`; (b) every subsequent call with the identical four key
components is answered from the cache: it returns the very same
tag/hash/error triple (negative results included), performs no fetch, and
records a hit; (c) changing exactly one of the four key components forces a
fresh miss (a fetch); (d) every Set increments the miss counter and every
successful Get increments the hit counter. -/
theorem getLatestVersion_cache_correct
    (fetch : Str → Str → Str → Except Str (List TagInfo)) (cmp : Str → Str → Int)
    (c₀ : Cache) (o r cv vp : Str) (h0 : c₀.constrained = []) :
    ((GetLatestVersion fetch cmp c₀ o r cv vp).2.2 = 1 ∧
     (GetLatestVersion fetch cmp c₀ o r cv vp).2.1.misses = c₀.misses + 1) ∧
    (∀ n : Nat,
      GetLatestVersion fetch cmp
          ((glvStep fetch cmp o r cv vp)^[n] (GetLatestVersion fetch cmp c₀ o r cv vp).2.1)
          o r cv vp =
        ((GetLatestVersion fetch cmp c₀ o r cv vp).1,
         { (glvStep fetch cmp o r cv vp)^[n] (GetLatestVersion fetch cmp c₀ o r cv vp).2.1 with
           hits := ((glvStep fetch cmp o r cv vp)^[n]
             (GetLatestVersion fetch cmp c₀ o r cv vp).2.1).hits + 1 }, 0)) ∧
    (∀ o' r' cv' vp',
      ((o' ≠ o ∧ r' = r ∧ cv' = cv ∧ vp' = vp) ∨
       (o' = o ∧ r' ≠ r ∧ cv' = cv ∧ vp' = vp) ∨
       (o' = o ∧ r' = r ∧ cv' ≠ cv ∧ vp' = vp) ∨
       (o' = o ∧ r' = r ∧ cv' = cv ∧ vp' ≠ vp)) →
      (GetLatestVersion fetch cmp (GetLatestVersion fetch cmp c₀ o r cv vp).2.1
        o' r' cv' vp').2.2 = 1) ∧
    (∀ (c : Cache) (k : VersionKey) (res : VersionResult),
      (SetConstrained c k res).misses = c.misses + 1 ∧
      (SetUnconstrained c k res).misses = c.misses + 1 ∧
      ((GetConstrained c k).1 = some res → (GetConstrained c k).2.hits = c.hits + 1) ∧
      ((GetUnconstrained c k).1 = some res → (GetUnconstrained c k).2.hits = c.hits + 1)) := by
  have hkey : lookupA c₀.constrained (NewConstrainedKey o r cv vp).keyString = none := by
    rw [h0]; rfl
  obtain ⟨res, hfirst⟩ := getLatestVersion_miss fetch cmp c₀ o r cv vp hkey
  have hc1 : (GetLatestVersion fetch cmp c₀ o r cv vp).2.1.constrained =
      [((NewConstrainedKey o r cv vp).keyString, res)] := by
    rw [hfirst]
    simp [SetConstrained, h0]
  have hinv : ∀ n : Nat,
      ((glvStep fetch cmp o r cv vp)^[n]
        (GetLatestVersion fetch cmp c₀ o r cv vp).2.1).constrained =
      [((NewConstrainedKey o r cv vp).keyString, res)] := by
    intro n
    induction n with
    | zero => simpa using hc1
    | succ n ih =>
      rw [Function.iterate_succ_apply']
      set cn := (glvStep fetch cmp o r cv vp)^[n]
        (GetLatestVersion fetch cmp c₀ o r cv vp).2.1 with hcn
      have hlook : lookupA cn.constrained (NewConstrainedKey o r cv vp).keyString = some res := by
        rw [ih]
        simp [lookupA]
      have hstep : glvStep fetch cmp o r cv vp cn = { cn with hits := cn.hits + 1 } := by
        unfold glvStep
        rw [getLatestVersion_hit fetch cmp cn o r cv vp res hlook]
      rw [hstep]
      exact ih
  refine ⟨⟨by rw [hfirst], by rw [hfirst]; simp [SetConstrained]⟩, ?_, ?_, ?_⟩
  · intro n
    set cn := (glvStep fetch cmp o r cv vp)^[n]
      (GetLatestVersion fetch cmp c₀ o r cv vp).2.1 with hcn
    have hlook : lookupA cn.constrained (NewConstrainedKey o r cv vp).keyString = some res := by
      rw [hinv n]
      simp [lookupA]
    rw [getLatestVersion_hit fetch cmp cn o r cv vp res hlook, hfirst]
  · intro o' r' cv' vp' hch
    have hne := keyString_ne_oneChange o r cv vp o' r' cv' vp' hch
    have hlook : lookupA (GetLatestVersion fetch cmp c₀ o r cv vp).2.1.constrained
        (NewConstrainedKey o' r' cv' vp').keyString = none := by
      rw [hc1]
      have hne2 : ¬ ((NewConstrainedKey o r cv vp).keyString =
          (NewConstrainedKey o' r' cv' vp').keyString) := fun h => hne h.symm
      simp [lookupA, hne2]
    obtain ⟨res', hcall⟩ := getLatestVersion_miss fetch cmp _ o' r' cv' vp' hlook
    rw [hcall]
  · intro c k res'
    refine ⟨rfl, rfl, ?_, ?_⟩
    · intro h
      have hl := getConstrained_some_lookup h
      unfold GetConstrained
      rw [hl]
    · intro h
      have hl := getUnconstrained_some_lookup h
      unfold GetUnconstrained
      rw [hl]

/-- A sample fetch oracle returning one matching tag. -/
def wFetch : Str → Str → Str → Except Str (List TagInfo) :=
  fun _ _ _ => Except.ok [{ tag := str "v2.5.0", hash := str "abc123" }]

/-- A sample comparator. -/
def wCmp : Str → Str → Int := fun _ _ => 0

/-- Witness for C1 at concrete inputs: first call fetches, the second
identical call does not, a pattern change fetches again, and a successful
Get bumps the hit counter. -/
theorem getLatestVersion_cache_correct_witness :
    (GetLatestVersion wFetch wCmp NewCache (str "actions") (str "checkout")
      (str "v2.0.0") (str "^2.0.0")).2.2 = 1 ∧
    (GetLatestVersion wFetch wCmp
      ((glvStep wFetch wCmp (str "actions") (str "checkout") (str "v2.0.0") (str "^2.0.0"))^[1]
        (GetLatestVersion wFetch wCmp NewCache (str "actions") (str "checkout")
          (str "v2.0.0") (str "^2.0.0")).2.1)
      (str "actions") (str "checkout") (str "v2.0.0") (str "^2.0.0")).2.2 = 0 ∧
    (GetLatestVersion wFetch wCmp
      (GetLatestVersion wFetch wCmp NewCache (str "actions") (str "checkout")
        (str "v2.0.0") (str "^2.0.0")).2.1
      (str "actions") (str "checkout") (str "v2.0.0") (str "~2.5.0")).2.2 = 1 ∧
    (GetConstrained (SetConstrained NewCache wKey wRes) wKey).2.hits =
      (SetConstrained NewCache wKey wRes).hits + 1 := by
  have h := getLatestVersion_cache_correct wFetch wCmp NewCache
    (str "actions") (str "checkout") (str "v2.0.0") (str "^2.0.0") rfl
  refine ⟨h.1.1, ?_, ?_, ?_⟩
  · rw [h.2.1 1]
  · exact h.2.2.1 (str "actions") (str "checkout") (str "v2.0.0") (str "~2.5.0")
      (Or.inr (Or.inr (Or.inr ⟨rfl, rfl, rfl, by decide⟩)))
  · exact (h.2.2.2 (SetConstrained NewCache wKey wRes) wKey wRes).2.2.1 (by decide)

/- ===================== internal/version (spec-modelled) ===================== -/

/-- Modelled from the spec: `version.Normalize` of the version package is not
under src/ (only its callers are). Versions are dotted numeric, optionally
v-prefixed; normalization strips the leading `v`. -/
def Normalize (v : Str) : Str :=
  match v with
  | 'v' :: rest => rest
  | _ => v

/-- Decimal value of a digit string prefix. -/
def digitsToNat (ds : Str) : Nat :=
  ds.foldl (fun acc c => acc * 10 + (c.toNat - '0'.toNat)) 0

/-- The leading numeric component of a string (empty component parses as 0). -/
def leadingNumber (s : Str) : Int :=
  (digitsToNat (s.takeWhile fun c => '0' ≤ c && c ≤ '9') : Int)

/-- The remainder of a version string after its first dot. -/
def afterFirstDot (s : Str) : Str :=
  match s.dropWhile (fun c => c ≠ '.') with
  | _ :: rest => rest
  | [] => []

/-- Modelled from the spec: `version.ExtractMajor` is not under src/. It
reads the major component of an optionally v-prefixed dotted numeric
version; a missing numeric component is 0. -/
def ExtractMajor (v : Str) : Int :=
  leadingNumber (Normalize v)

/-- Modelled from the spec: `version.ExtractMajorMinor` is not under src/.
It reads the major and minor components; missing components are 0. -/
def ExtractMajorMinor (v : Str) : Int × Int :=
  let n := Normalize v
  (leadingNumber n, leadingNumber (afterFirstDot n))

/- ===================== matchesVersionPattern (actions client) ===================== -/

/-- `matchesVersionPattern` from the actions client: empty pattern matches
all; a caret pattern with major 1 matches any tag with major at least 1,
with other majors it requires the same major; a tilde pattern requires the
same major and minor; any other non-empty pattern matches nothing. -/
def matchesVersionPattern (tagVersion pat : Str) : Bool :=
  if pat = [] then true
  else
    match pat with
    | '^' :: after =>
      let patternMajor := ExtractMajor after
      let tagMajor := ExtractMajor tagVersion
      if patternMajor = 1 then decide (tagMajor ≥ 1) else decide (tagMajor = patternMajor)
    | '~' :: after =>
      let pmm := ExtractMajorMinor after
      let tmm := ExtractMajorMinor tagVersion
      decide (tmm.1 = pmm.1) && decide (tmm.2 = pmm.2)
    | _ => false

/-- A non-empty pattern that starts with neither a caret nor a tilde never
matches. -/
theorem matchesVersionPattern_unrecognized (tag : Str) (c : Char) (rest : Str)
    (hc : ¬ c = '^') (ht : ¬ c = '~') :
    matchesVersionPattern tag (c :: rest) = false := by
  simp only [matchesVersionPattern]
  rw [if_neg (by simp)]
  split
  all_goals try rfl
  all_goals simp_all

/-- C4: the specified pattern-matching table, for every tag string, plus the
five concrete cases. -/
theorem matchesVersionPattern_table :
    (∀ tag : Str, matchesVersionPattern tag [] = true) ∧
    (∀ tag rest : Str, ExtractMajor rest = 1 →
      (matchesVersionPattern tag ('^' :: rest) = true ↔ ExtractMajor tag ≥ 1)) ∧
    (∀ tag rest : Str, ExtractMajor rest ≠ 1 →
      (matchesVersionPattern tag ('^' :: rest) = true ↔ ExtractMajor tag = ExtractMajor rest)) ∧
    (∀ tag rest : Str,
      matchesVersionPattern tag ('~' :: rest) = true ↔
        ExtractMajorMinor tag = ExtractMajorMinor rest) ∧
    (∀ tag pat : Str, pat ≠ [] → (∀ rest, pat ≠ '^' :: rest) → (∀ rest, pat ≠ '~' :: rest) →
      matchesVersionPattern tag pat = false) ∧
    (matchesVersionPattern (str "v2.0.0") (str "^1.0.0") = true ∧
     matchesVersionPattern (str "v3.0.0") (str "^2.0.0") = false ∧
     matchesVersionPattern (str "v2.5.1") (str "~2.5.0") = true ∧
     matchesVersionPattern (str "v2.6.0") (str "~2.5.0") = false ∧
     matchesVersionPattern (str "2.0.0") (str "") = true) := by
  refine ⟨fun tag => rfl, ?_, ?_, ?_, ?_, by decide, by decide, by decide, by decide, by decide⟩
  · intro tag rest h1
    simp [matchesVersionPattern, h1]
  · intro tag rest h1
    simp [matchesVersionPattern, h1]
  · intro tag rest
    simp [matchesVersionPattern, Prod.ext_iff]
  · intro tag pat hne hcaret htilde
    cases pat with
    | nil => exact absurd rfl hne
    | cons c rest =>
      by_cases hc : c = '^'
      · subst hc
        exact absurd rfl (hcaret rest)
      · by_cases ht : c = '~'
        · subst ht
          exact absurd rfl (htilde rest)
        · exact matchesVersionPattern_unrecognized tag c rest hc ht

/-- Witness for C4: the table rows applied at concrete tags and patterns. -/
theorem matchesVersionPattern_table_witness :
    (matchesVersionPattern (str "v2.0.0") ('^' :: str "1.0.0") = true ↔
      ExtractMajor (str "v2.0.0") ≥ 1) ∧
    (matchesVersionPattern (str "v3.0.0") ('^' :: str "2.0.0") = true ↔
      ExtractMajor (str "v3.0.0") = ExtractMajor (str "2.0.0")) ∧
    matchesVersionPattern (str "2.0.0") (str "invalid") = false := by
  have h := matchesVersionPattern_table
  refine ⟨h.2.1 (str "v2.0.0") (str "1.0.0") (by decide),
          h.2.2.1 (str "v3.0.0") (str "2.0.0") (by decide),
          h.2.2.2.2.1 (str "2.0.0") (str "invalid") (by decide) ?_ ?_⟩
  · intro rest hr
    simp [str] at hr
  · intro rest hr
    simp [str] at hr

/- ===================== IsCommitHash / IsMajorVersionOnly (parser.go) ===================== -/

/-- `IsCommitHash` from parser.go: a 40-character hexadecimal reference. -/
def IsCommitHash (ref : Str) : Bool :=
  if ref.length ≠ 40 then false
  else ref.all fun c =>
    (('0' ≤ c && c ≤ '9') || ('a' ≤ c && c ≤ 'f') || ('A' ≤ c && c ≤ 'F'))

/-- `IsMajorVersionOnly` from parser.go: after normalization the reference
is non-empty and all digits. -/
def IsMajorVersionOnly (ref : Str) : Bool :=
  let r := Normalize ref
  if r = [] then false
  else r.all fun c => '0' ≤ c && c ≤ '9'

/-- `strings.TrimPrefix`. -/
def goTrimAtStart (s pre : Str) : Str :=
  if pre.isPrefixOf s then s.drop pre.length else s

/-- The remote operations `Client.GetCommitHash` can perform, abstracted as
oracles: resolving `refs/tags/<ref>` and `refs/heads/<ref>` (giving the SHA
on success), and `GetLatestMinorVersion` (giving tag and hash). -/
structure GitApi where
  getRefTag : Str → Str → Str → Option Str
  getRefBranch : Str → Str → Str → Option Str
  latestMinor : Str → Str → Str → Except Str (Str × Str)

/-- `Client.GetCommitHash`: returns a 40-hex reference unchanged with no
remote call; otherwise strips a `refs/` lead, tries the
latest-minor-in-major shortcut for bare major versions, then tag and branch
resolution. The second component counts the remote API calls performed. -/
def GetCommitHash (api : GitApi) (owner repo ref : Str) : Except Str Str × Nat :=
  if IsCommitHash ref then (Except.ok ref, 0)
  else
    let ref := goTrimAtStart ref (str "refs/")
    let major : Option Str × Nat :=
      if IsMajorVersionOnly ref then
        match api.latestMinor owner repo ref with
        | Except.ok (_, hash) => (some hash, 1)
        | Except.error _ => (none, 1)
      else (none, 0)
    match major with
    | (some hash, calls) => (Except.ok hash, calls)
    | (none, calls) =>
      match api.getRefTag owner repo ref with
      | some sha => (Except.ok sha, calls + 1)
      | none =>
        match api.getRefBranch owner repo ref with
        | some sha => (Except.ok sha, calls + 2)
        | none => (Except.error (str "failed to fetch ref " ++ ref), calls + 2)

/-- C5: for every owner, repo and reference, if the reference is a
40-character hexadecimal string then `GetCommitHash` returns it unchanged
with no error and performs no remote API call. -/
theorem getCommitHash_shortCircuit (api : GitApi) (owner repo ref : Str)
    (h : IsCommitHash ref = true) :
    GetCommitHash api owner repo ref = (Except.ok ref, 0) := by
  simp [GetCommitHash, h]

/-- A remote API where every operation fails. -/
def wApi : GitApi :=
  { getRefTag := fun _ _ _ => none,
    getRefBranch := fun _ _ _ => none,
    latestMinor := fun _ _ _ => Except.error (str "no tags") }

/-- Witness for C5 at a concrete 40-hex reference. -/
theorem getCommitHash_shortCircuit_witness :
    IsCommitHash (str "b4ffde65f46336ab88eb53be808477a3936bae11") = true ∧
    GetCommitHash wApi (str "actions") (str "checkout")
        (str "b4ffde65f46336ab88eb53be808477a3936bae11") =
      (Except.ok (str "b4ffde65f46336ab88eb53be808477a3936bae11"), 0) :=
  ⟨by decide,
   getCommitHash_shortCircuit wApi (str "actions") (str "checkout")
     (str "b4ffde65f46336ab88eb53be808477a3936bae11") (by decide)⟩

/- ===================== internal/linter Issue and internal/cmd classifyIssues ===================== -/

/-- Decimal digit characters of a natural number. -/
def natToStr (n : Nat) : Str := Nat.toDigits 10 n

/-- Go `%d` formatting of an int. -/
def intToStr : Int → Str
  | Int.ofNat n => natToStr n
  | Int.negSucc n => '-' :: natToStr (n + 1)

/-- `Issue` from linter.go: file, line (0 when file-level), linter name and
message. -/
structure Issue where
  file : Str
  line : Int
  linter : Str
  message : Str
  deriving DecidableEq, Repr

/-- `Issue.Key` from linter.go: `"<file>:<line>:<linter>:<message>"`. -/
def Issue.Key (i : Issue) : Str :=
  i.file ++ str ":" ++ intToStr i.line ++ str ":" ++ i.linter ++ str ":" ++ i.message

/-- The loop of `classifyIssues` from lint.go over the original issues,
given the set of keys remaining after the fix pass. -/
def classifyGo (keys : List Str) : List Issue → List Issue × List Issue
  | [] => ([], [])
  | i :: rest =>
    let p := classifyGo keys rest
    if i.Key ∈ keys then (p.1, i :: p.2) else (i :: p.1, p.2)

/-- `classifyIssues` from lint.go: separates the first-pass issues into
(fixed, unfixed) according to whether their key remains after fixing. -/
def classifyIssues (original remaining : List Issue) : List Issue × List Issue :=
  classifyGo (remaining.map Issue.Key) original

/-- The two issues of the counterexample: distinct 4-tuples with equal keys
(`"f:1:l:x:m"`), because a colon inside the linter name or message makes
`Issue.Key` non-injective. -/
def cxPass1Issue : Issue :=
  { file := str "f", line := 1, linter := str "l", message := str "x:m" }

/-- The second-pass issue colliding with `cxPass1Issue` by key only. -/
def cxPass2Issue : Issue :=
  { file := str "f", line := 1, linter := str "l:x", message := str "m" }

/-- Counterexample to C6 as stated: `cxPass1Issue` is classified as unfixed
although its identity 4-tuple does not occur in the second pass (the two
issues collide on the key string but differ as 4-tuples). -/
theorem classifyIssues_counterexample :
    (classifyIssues [cxPass1Issue] [cxPass2Issue]).1 = [] ∧
    (classifyIssues [cxPass1Issue] [cxPass2Issue]).2 = [cxPass1Issue] ∧
    cxPass1Issue ≠ cxPass2Issue := by
  refine ⟨?_, ?_, by decide⟩ <;>
    simp [classifyIssues, classifyGo, cxPass1Issue, cxPass2Issue, Issue.Key, intToStr,
      natToStr, str]

/-- The fixed component of the classification is the filter of the issues
whose key is absent from the remaining keys. -/
theorem classifyGo_fst (keys : List Str) (l : List Issue) :
    (classifyGo keys l).1 = l.filter (fun i => ¬ i.Key ∈ keys) := by
  induction l with
  | nil => rfl
  | cons i rest ih =>
    by_cases hk : i.Key ∈ keys <;> simp [classifyGo, hk, ih]

/-- The unfixed component is the filter of the issues whose key remains. -/
theorem classifyGo_snd (keys : List Str) (l : List Issue) :
    (classifyGo keys l).2 = l.filter (fun i => i.Key ∈ keys) := by
  induction l with
  | nil => rfl
  | cons i rest ih =>
    by_cases hk : i.Key ∈ keys <;> simp [classifyGo, hk, ih]

theorem classifyGo_length (keys : List Str) (l : List Issue) :
    (classifyGo keys l).1.length + (classifyGo keys l).2.length = l.length := by
  induction l with
  | nil => rfl
  | cons i rest ih =>
    by_cases hk : i.Key ∈ keys <;> simp [classifyGo, hk] <;> omega

theorem classifyGo_mem_fst (keys : List Str) (l : List Issue) (i : Issue) :
    i ∈ (classifyGo keys l).1 ↔ i ∈ l ∧ i.Key ∉ keys := by
  rw [classifyGo_fst]
  simp [List.mem_filter]

theorem classifyGo_mem_snd (keys : List Str) (l : List Issue) (i : Issue) :
    i ∈ (classifyGo keys l).2 ↔ i ∈ l ∧ i.Key ∈ keys := by
  rw [classifyGo_snd]
  simp [List.mem_filter]

/-- C6 (amended): `classifyIssues` partitions the first-pass issues — every
issue of pass 1 lands in exactly one of (fixed, unfixed) and their
sizes add up to pass 1 — and unfixed is exactly the set of pass-1 issues
whose Key string occurs among the pass-2 keys (fixed its complement). -/
theorem classifyIssues_partition (original remaining : List Issue) :
    (classifyIssues original remaining).1 =
      original.filter (fun i => ¬ i.Key ∈ remaining.map Issue.Key) ∧
    (classifyIssues original remaining).2 =
      original.filter (fun i => i.Key ∈ remaining.map Issue.Key) ∧
    (classifyIssues original remaining).1.length +
      (classifyIssues original remaining).2.length = original.length ∧
    (∀ i ∈ original,
      (i ∈ (classifyIssues original remaining).1 ∧ i ∉ (classifyIssues original remaining).2) ∨
      (i ∈ (classifyIssues original remaining).2 ∧ i ∉ (classifyIssues original remaining).1)) ∧
    (∀ i, (i ∈ (classifyIssues original remaining).1 ∨
           i ∈ (classifyIssues original remaining).2) ↔ i ∈ original) := by
  unfold classifyIssues
  refine ⟨classifyGo_fst _ _, classifyGo_snd _ _, classifyGo_length _ _, ?_, ?_⟩
  · intro i hi
    by_cases hk : i.Key ∈ remaining.map Issue.Key
    · exact Or.inr ⟨(classifyGo_mem_snd _ _ _).mpr ⟨hi, hk⟩,
        fun hmem => ((classifyGo_mem_fst _ _ _).mp hmem).2 hk⟩
    · exact Or.inl ⟨(classifyGo_mem_fst _ _ _).mpr ⟨hi, hk⟩,
        fun hmem => hk ((classifyGo_mem_snd _ _ _).mp hmem).2⟩
  · intro i
    constructor
    · rintro (h | h)
      · exact ((classifyGo_mem_fst _ _ _).mp h).1
      · exact ((classifyGo_mem_snd _ _ _).mp h).1
    · intro h
      by_cases hk : i.Key ∈ remaining.map Issue.Key
      · exact Or.inr ((classifyGo_mem_snd _ _ _).mpr ⟨h, hk⟩)
      · exact Or.inl ((classifyGo_mem_fst _ _ _).mpr ⟨h, hk⟩)

/-- Witness for C6 (amended) at the concrete colliding lists. -/
theorem classifyIssues_partition_witness :
    (classifyIssues [cxPass1Issue] [cxPass2Issue]).2 =
      [cxPass1Issue].filter (fun i => i.Key ∈ [cxPass2Issue].map Issue.Key) ∧
    ((cxPass1Issue ∈ (classifyIssues [cxPass1Issue] [cxPass2Issue]).1 ∧
      cxPass1Issue ∉ (classifyIssues [cxPass1Issue] [cxPass2Issue]).2) ∨
     (cxPass1Issue ∈ (classifyIssues [cxPass1Issue] [cxPass2Issue]).2 ∧
      cxPass1Issue ∉ (classifyIssues [cxPass1Issue] [cxPass2Issue]).1)) := by
  have h := classifyIssues_partition [cxPass1Issue] [cxPass2Issue]
  exact ⟨h.2.1, h.2.2.2.1 cxPass1Issue (List.mem_singleton.mpr rfl)⟩

/- ===================== shared line/string helpers ===================== -/

/-- A space or a tab (the cutset `" \t"` of the Go sources). -/
def isSpaceTab (c : Char) : Bool := c = ' ' || c = '\t'

/-- ASCII whitespace as trimmed by Go `strings.TrimSpace`. -/
def goSpace (c : Char) : Bool :=
  c = ' ' || c = '\t' || c = '\n' || c = '\r' || c = Char.ofNat 11 || c = Char.ofNat 12

/-- `strings.TrimRight(s, " \t")`. -/
def trimRightST (s : Str) : Str := (s.reverse.dropWhile isSpaceTab).reverse

/-- `strings.TrimLeft(s, " \t")`. -/
def trimLeftST (s : Str) : Str := s.dropWhile isSpaceTab

/-- `strings.TrimSpace`. -/
def trimSpace (s : Str) : Str :=
  ((s.dropWhile goSpace).reverse.dropWhile goSpace).reverse

/-- `countLeadingSpaces` from the format linter (spaces only, tabs not
counted). -/
def countLeadingSpaces (s : Str) : Nat := (s.takeWhile fun c => c = ' ').length

/-- `strings.Split(s, "\n")`, auxiliary: current line and completed lines. -/
def splitNLAux : Str → Str × List Str
  | [] => ([], [])
  | c :: cs =>
    let p := splitNLAux cs
    if c = '\n' then ([], p.1 :: p.2) else (c :: p.1, p.2)

/-- `strings.Split(s, "\n")`. -/
def splitNL (s : Str) : List Str := (splitNLAux s).1 :: (splitNLAux s).2

/-- `strings.Join(lines, "\n")`. -/
def joinNL : List Str → Str
  | [] => []
  | [l] => l
  | l :: ls => l ++ '\n' :: joinNL ls

/-- `strings.Index(s, sub)`: index of the first occurrence. -/
def indexOfSub : Str → Str → Option Nat
  | s@(_ :: rest), sub =>
    if sub.isPrefixOf s then some 0 else (indexOfSub rest sub).map (· + 1)
  | [], sub => if sub.isPrefixOf ([] : Str) then some 0 else none

/-- `strings.Contains(s, sub)`. -/
def containsSub (s sub : Str) : Bool := (indexOfSub s sub).isSome

/-- `strings.Replace(s, old, new, 1)`: replace the first occurrence. -/
def replaceFirst (s old new : Str) : Str :=
  match indexOfSub s old with
  | none => s
  | some i => s.take i ++ new ++ s.drop (i + old.length)

/- ===================== internal/workflow/workflow.go ===================== -/

/-- `Workflow`: the file path and the raw byte content (source of truth). -/
structure Workflow where
  file : Str
  raw : Str
  deriving DecidableEq, Repr

/-- The per-line transformation of `Workflow.UpdateActionUses` applied to
a line containing the old reference: replace the first occurrence, cut at
the first `" #"`, trim trailing space/tab, and append `" # "+comment` when
a comment is given. -/
def fixUsesLine (oldUses newUses comment line : Str) : Str :=
  let newLine := replaceFirst line oldUses newUses
  let newLine :=
    match indexOfSub newLine (str " #") with
    | some idx => newLine.take idx
    | none => newLine
  let newLine := trimRightST newLine
  if comment ≠ [] then newLine ++ str " # " ++ comment else newLine

/-- The line loop of `Workflow.UpdateActionUses`: rewrites every line that
contains the old reference and reports whether any line was updated. -/
def updateLinesGo (oldUses newUses comment : Str) : List Str → List Str × Bool
  | [] => ([], false)
  | line :: rest =>
    let p := updateLinesGo oldUses newUses comment rest
    if containsSub line oldUses then
      (fixUsesLine oldUses newUses comment line :: p.1, true)
    else (line :: p.1, p.2)

/-- `Workflow.UpdateActionUses` from workflow.go: textual line-based
replacement. On success the raw content is rewritten; when the reference is
not found an error is reported and the workflow is left unchanged. -/
def UpdateActionUses (w : Workflow) (oldUses newUses comment : Str) : Workflow × Option Str :=
  let r := updateLinesGo oldUses newUses comment (splitNL w.raw)
  if r.2 then ({ w with raw := joinNL r.1 }, none)
  else (w, some (str "action " ++ oldUses ++ str " not found"))

theorem updateLinesGo_fst (oldUses newUses comment : Str) (lines : List Str) :
    (updateLinesGo oldUses newUses comment lines).1 =
      lines.map (fun line => if containsSub line oldUses then
        fixUsesLine oldUses newUses comment line else line) := by
  induction lines with
  | nil => rfl
  | cons l rest ih =>
    by_cases hc : containsSub l oldUses <;> simp [updateLinesGo, hc, ih]

theorem updateLinesGo_snd (oldUses newUses comment : Str) (lines : List Str) :
    (updateLinesGo oldUses newUses comment lines).2 =
      lines.any (fun line => containsSub line oldUses) := by
  induction lines with
  | nil => rfl
  | cons l rest ih =>
    by_cases hc : containsSub l oldUses <;> simp [updateLinesGo, hc, ih]

/-- C7: when no line of the raw content contains the old reference,
`UpdateActionUses` reports an error and leaves the workflow (its RawBytes)
unchanged; when some line does, it succeeds and rewrites exactly the lines
containing the reference (first occurrence replaced, any existing trailing
`" #"` comment stripped, trailing whitespace trimmed, and `" # "+comment`
appended when the comment is non-empty), leaving every other line as is. -/
theorem updateActionUses_spec (w : Workflow) (oldUses newUses comment : Str) :
    ((∀ line ∈ splitNL w.raw, containsSub line oldUses = false) →
      UpdateActionUses w oldUses newUses comment =
        (w, some (str "action " ++ oldUses ++ str " not found"))) ∧
    ((∃ line ∈ splitNL w.raw, containsSub line oldUses = true) →
      UpdateActionUses w oldUses newUses comment =
        ({ w with raw := joinNL ((splitNL w.raw).map (fun line =>
            if containsSub line oldUses then fixUsesLine oldUses newUses comment line
            else line)) }, none)) := by
  constructor
  · intro h
    unfold UpdateActionUses
    rw [if_neg]
    rw [updateLinesGo_snd]
    simp only [List.any_eq_true, Bool.not_eq_true]
    rintro ⟨line, hline, hc⟩
    exact absurd hc (by simp [h line hline])
  · intro h
    unfold UpdateActionUses
    rw [if_pos, updateLinesGo_fst]
    rw [updateLinesGo_snd]
    simp only [List.any_eq_true]
    obtain ⟨line, hline, hc⟩ := h
    exact ⟨line, hline, hc⟩

/-- The sample workflow for the C7 witness. -/
def wWorkflow : Workflow :=
  { file := str "ci.yml",
    raw := str "    - uses: actions/checkout@v3 # old\n    - run: make" }

/-- Witness for C7: a missing reference errors and leaves the workflow
unchanged; a present reference rewrites the line and appends the comment. -/
theorem updateActionUses_spec_witness :
    UpdateActionUses wWorkflow (str "actions/setup-go@v5") (str "x") (str "v5.0.0") =
      (wWorkflow, some (str "action " ++ str "actions/setup-go@v5" ++ str " not found")) ∧
    UpdateActionUses wWorkflow (str "actions/checkout@v3")
        (str "actions/checkout@b4ffde65f46336ab88eb53be808477a3936bae11") (str "v3.5.0") =
      ({ wWorkflow with raw := joinNL ((splitNL wWorkflow.raw).map (fun line =>
          if containsSub line (str "actions/checkout@v3") then
            fixUsesLine (str "actions/checkout@v3")
              (str "actions/checkout@b4ffde65f46336ab88eb53be808477a3936bae11")
              (str "v3.5.0") line
          else line)) }, none) := by
  have h := updateActionUses_spec wWorkflow
  exact ⟨(h (str "actions/setup-go@v5") (str "x") (str "v5.0.0")).1 (by decide),
         (h (str "actions/checkout@v3")
            (str "actions/checkout@b4ffde65f46336ab88eb53be808477a3936bae11")
            (str "v3.5.0")).2 (by decide)⟩

/- ===================== internal/linter/linter.go: WorkflowLinter.Lint ===================== -/

/-- A linter plugin: `LintWorkflow(wf) → (issues, error)`. -/
abbrev LinterFn := Workflow → Except Str (List Issue)

/-- The inner loop of `WorkflowLinter.Lint` over the enabled linters of one
workflow: skips disabled linters, aborts on the first linter error with a
wrapped message naming the linter and the file, and otherwise tags every
returned issue with the linter's registered name. -/
def lintWorkflowLinters (wf : Workflow) (enabled : Str → Bool) :
    List (Str × LinterFn) → Except Str (List Issue)
  | [] => Except.ok []
  | (name, l) :: rest =>
    if enabled name then
      match l wf with
      | Except.error e =>
        Except.error (str "linter " ++ name ++ str " failed on " ++ wf.file ++ str ": " ++ e)
      | Except.ok issues =>
        match lintWorkflowLinters wf enabled rest with
        | Except.error e2 => Except.error e2
        | Except.ok more =>
          Except.ok (issues.map (fun i => { i with linter := name }) ++ more)
    else lintWorkflowLinters wf enabled rest

/-- `WorkflowLinter.Lint` from linter.go: iterates the workflows, running
all enabled linters on each, accumulating tagged issues, failing fast on
the first linter error. -/
def Lint (linters : List (Str × LinterFn)) (enabled : Str → Bool) :
    List Workflow → Except Str (List Issue)
  | [] => Except.ok []
  | wf :: rest =>
    match lintWorkflowLinters wf enabled linters with
    | Except.error e => Except.error e
    | Except.ok issues =>
      match Lint linters enabled rest with
      | Except.error e => Except.error e
      | Except.ok more => Except.ok (issues ++ more)

/-- If some enabled linter fails on the workflow, the inner loop returns a
wrapped error naming a failing linter and the file. -/
theorem lintWorkflowLinters_error (wf : Workflow) (enabled : Str → Bool)
    (linters : List (Str × LinterFn))
    (h : ∃ nl ∈ linters, enabled nl.1 = true ∧ ∃ e, nl.2 wf = Except.error e) :
    ∃ nl ∈ linters, ∃ e, enabled nl.1 = true ∧ nl.2 wf = Except.error e ∧
      lintWorkflowLinters wf enabled linters =
        Except.error (str "linter " ++ nl.1 ++ str " failed on " ++ wf.file ++ str ": " ++ e) := by
  induction linters with
  | nil => simp at h
  | cons nl rest ih =>
    obtain ⟨name, l⟩ := nl
    by_cases hen : enabled name = true
    · cases hl : l wf with
      | error e =>
        refine ⟨(name, l), List.mem_cons_self _ _, e, hen, hl, ?_⟩
        simp [lintWorkflowLinters, hen, hl]
      | ok issues =>
        have hrest : ∃ nl ∈ rest, enabled nl.1 = true ∧ ∃ e, nl.2 wf = Except.error e := by
          rcases h with ⟨nl', hmem, hen', e', he'⟩
          rcases List.mem_cons.mp hmem with rfl | hmem'
          · have he2 : l wf = Except.error e' := he'
            rw [hl] at he2
            exact absurd he2 (by simp)
          · exact ⟨nl', hmem', hen', e', he'⟩
        obtain ⟨nl', hmem', e', hen', he', heq⟩ := ih hrest
        refine ⟨nl', List.mem_cons_of_mem _ hmem', e', hen', he', ?_⟩
        simp [lintWorkflowLinters, hen, hl, heq]
    · have hrest : ∃ nl ∈ rest, enabled nl.1 = true ∧ ∃ e, nl.2 wf = Except.error e := by
        rcases h with ⟨nl', hmem, hen', e', he'⟩
        rcases List.mem_cons.mp hmem with rfl | hmem'
        · exact absurd hen' hen
        · exact ⟨nl', hmem', hen', e', he'⟩
      obtain ⟨nl', hmem', e', hen', he', heq⟩ := ih hrest
      refine ⟨nl', List.mem_cons_of_mem _ hmem', e', hen', he', ?_⟩
      simp [lintWorkflowLinters, hen, heq]

/-- On success, every issue of the inner loop originates from an enabled
linter and is tagged with that linter's name. -/
theorem lintWorkflowLinters_ok_mem (wf : Workflow) (enabled : Str → Bool)
    (linters : List (Str × LinterFn)) (issues : List Issue)
    (h : lintWorkflowLinters wf enabled linters = Except.ok issues) :
    ∀ i ∈ issues, ∃ nl ∈ linters, ∃ l j, enabled nl.1 = true ∧
      nl.2 wf = Except.ok l ∧ j ∈ l ∧ i = { j with linter := nl.1 } := by
  induction linters generalizing issues with
  | nil =>
    simp [lintWorkflowLinters] at h
    subst h
    intro i hi
    simp at hi
  | cons nl rest ih =>
    obtain ⟨name, l⟩ := nl
    by_cases hen : enabled name = true
    · cases hl : l wf with
      | error e => simp [lintWorkflowLinters, hen, hl] at h
      | ok lst =>
        cases hrest : lintWorkflowLinters wf enabled rest with
        | error e2 => simp [lintWorkflowLinters, hen, hl, hrest] at h
        | ok more =>
          simp only [lintWorkflowLinters, hen, if_true, hl, hrest] at h
          injection h with h
          subst h
          intro i hi
          rcases List.mem_append.mp hi with hmap | hmore
          · obtain ⟨j, hj, hji⟩ := List.mem_map.mp hmap
            exact ⟨(name, l), List.mem_cons_self _ _, lst, j, hen, hl, hj, hji.symm⟩
          · obtain ⟨nl', hmem', l', j, hen', hl', hj, hji⟩ := ih more hrest i hmore
            exact ⟨nl', List.mem_cons_of_mem _ hmem', l', j, hen', hl', hj, hji⟩
    · simp only [lintWorkflowLinters, hen, if_false] at h
      intro i hi
      obtain ⟨nl', hmem', l', j, hen', hl', hj, hji⟩ := ih issues h i hi
      exact ⟨nl', List.mem_cons_of_mem _ hmem', l', j, hen', hl', hj, hji⟩

/-- If no enabled linter fails on the workflow, the inner loop succeeds. -/
theorem lintWorkflowLinters_ok_of_no_error (wf : Workflow) (enabled : Str → Bool)
    (linters : List (Str × LinterFn))
    (h : ∀ nl ∈ linters, enabled nl.1 = true → ∀ e, nl.2 wf ≠ Except.error e) :
    ∃ issues, lintWorkflowLinters wf enabled linters = Except.ok issues := by
  induction linters with
  | nil => exact ⟨[], rfl⟩
  | cons nl rest ih =>
    obtain ⟨name, l⟩ := nl
    have hrest : ∀ nl ∈ rest, enabled nl.1 = true → ∀ e, nl.2 wf ≠ Except.error e :=
      fun nl hm => h nl (List.mem_cons_of_mem _ hm)
    obtain ⟨more, hmore⟩ := ih hrest
    by_cases hen : enabled name = true
    · cases hl : l wf with
      | error e =>
        exact absurd hl (h (name, l) (List.mem_cons_self _ _) hen e)
      | ok issues =>
        exact ⟨issues.map (fun i => { i with linter := name }) ++ more,
          by simp [lintWorkflowLinters, hen, hl, hmore]⟩
    · exact ⟨more, by simp [lintWorkflowLinters, hen, hmore]⟩

/-- C8: if any enabled linter fails on any workflow, `Lint` returns an
error (no issue list) wrapping a failing linter's name and the failing
workflow's file; when no linter fails, every returned issue carries the
registered name of the linter that produced it. -/
theorem lint_spec (linters : List (Str × LinterFn)) (enabled : Str → Bool)
    (wfs : List Workflow) :
    ((∃ wf ∈ wfs, ∃ nl ∈ linters, enabled nl.1 = true ∧ ∃ e, nl.2 wf = Except.error e) →
      ∃ wf ∈ wfs, ∃ nl ∈ linters, ∃ e, enabled nl.1 = true ∧ nl.2 wf = Except.error e ∧
        Lint linters enabled wfs =
          Except.error (str "linter " ++ nl.1 ++ str " failed on " ++ wf.file ++ str ": " ++ e)) ∧
    (∀ issues, Lint linters enabled wfs = Except.ok issues →
      ∀ i ∈ issues, ∃ nl ∈ linters, ∃ wf ∈ wfs, ∃ l j, enabled nl.1 = true ∧
        nl.2 wf = Except.ok l ∧ j ∈ l ∧ i = { j with linter := nl.1 }) := by
  induction wfs with
  | nil =>
    constructor
    · intro h
      simp at h
    · intro issues h i hi
      simp [Lint] at h
      subst h
      simp at hi
  | cons wf rest ih =>
    constructor
    · intro h
      by_cases hhead : ∃ nl ∈ linters, enabled nl.1 = true ∧ ∃ e, nl.2 wf = Except.error e
      · obtain ⟨nl', hnl', e', hen', he', heq⟩ :=
          lintWorkflowLinters_error wf enabled linters hhead
        refine ⟨wf, List.mem_cons_self _ _, nl', hnl', e', hen', he', ?_⟩
        simp [Lint, heq]
      · have hrest : ∃ wf' ∈ rest, ∃ nl ∈ linters, enabled nl.1 = true ∧
            ∃ e, nl.2 wf' = Except.error e := by
          rcases h with ⟨wf', hwf', nl', hnl', hen', e', he'⟩
          rcases List.mem_cons.mp hwf' with rfl | hrest'
          · exact absurd ⟨nl', hnl', hen', e', he'⟩ hhead
          · exact ⟨wf', hrest', nl', hnl', hen', e', he'⟩
        obtain ⟨issues, hok⟩ := lintWorkflowLinters_ok_of_no_error wf enabled linters
          (by push_neg at hhead; exact hhead)
        obtain ⟨wf', hwf', nl', hnl', e', hen', he', heq⟩ := ih.1 hrest
        refine ⟨wf', List.mem_cons_of_mem _ hwf', nl', hnl', e', hen', he', ?_⟩
        simp [Lint, hok, heq]
    · intro issues h i hi
      cases hwf : lintWorkflowLinters wf enabled linters with
      | error e => simp [Lint, hwf] at h
      | ok lst =>
        cases hrest : Lint linters enabled rest with
        | error e => simp [Lint, hwf, hrest] at h
        | ok more =>
          simp only [Lint, hwf, hrest] at h
          injection h with h
          subst h
          rcases List.mem_append.mp hi with hin | hin
          · obtain ⟨nl', hnl', l', j, hen', hl', hj, hji⟩ :=
              lintWorkflowLinters_ok_mem wf enabled linters lst hwf i hin
            exact ⟨nl', hnl', wf, List.mem_cons_self _ _, l', j, hen', hl', hj, hji⟩
          · obtain ⟨nl', hnl', wf', hwf', l', j, hen', hl', hj, hji⟩ :=
              ih.2 more hrest i hin
            exact ⟨nl', hnl', wf', List.mem_cons_of_mem _ hwf', l', j, hen', hl', hj, hji⟩

/-- An untagged issue as produced by a plugin (linter name not yet set). -/
def wIssueRaw : Issue :=
  { file := str "ci.yml", line := 3, linter := [], message := str "missing permissions" }

/-- A linter that reports one issue. -/
def wGoodLinter : LinterFn := fun _ => Except.ok [wIssueRaw]

/-- A linter that always fails. -/
def wBadLinter : LinterFn := fun _ => Except.error (str "boom")

/-- A registry with a succeeding and a failing linter. -/
def wLinters : List (Str × LinterFn) :=
  [(str "permissions", wGoodLinter), (str "versions", wBadLinter)]

/-- A registry with only the succeeding linter. -/
def wLintersGood : List (Str × LinterFn) := [(str "permissions", wGoodLinter)]

/-- The everything-enabled configuration. -/
def wEnabled : Str → Bool := fun _ => true

/-- Witness for C8: with a failing linter present the pass aborts with a
wrapped error; with only succeeding linters the returned issue carries the
registered linter name. -/
theorem lint_spec_witness :
    (∃ wf ∈ [wWorkflow], ∃ nl ∈ wLinters, ∃ e, wEnabled nl.1 = true ∧
      nl.2 wf = Except.error e ∧
      Lint wLinters wEnabled [wWorkflow] =
        Except.error (str "linter " ++ nl.1 ++ str " failed on " ++ wf.file ++ str ": " ++ e)) ∧
    (∃ nl ∈ wLintersGood, ∃ wf ∈ [wWorkflow], ∃ l j, wEnabled nl.1 = true ∧
      nl.2 wf = Except.ok l ∧ j ∈ l ∧
      ({ wIssueRaw with linter := str "permissions" } : Issue) = { j with linter := nl.1 }) := by
  constructor
  · exact (lint_spec wLinters wEnabled [wWorkflow]).1
      ⟨wWorkflow, List.mem_singleton.mpr rfl, (str "versions", wBadLinter),
        List.mem_cons_of_mem _ (List.mem_singleton.mpr rfl), rfl, str "boom", rfl⟩
  · exact (lint_spec wLintersGood wEnabled [wWorkflow]).2
      [{ wIssueRaw with linter := str "permissions" }] rfl
      ({ wIssueRaw with linter := str "permissions" }) (List.mem_singleton.mpr rfl)

/- ===================== newIssue and the style linter checks ===================== -/

/-- `newIssue` from the linter package: creates an Issue only when the
message is non-empty, otherwise returns nil. -/
def newIssue (file : Str) (line : Int) (message : Str) : Option Issue :=
  if message = [] then none
  else some { file := file, line := line, linter := [], message := message }

/-- `StyleSettings` from internal/config/style_settings.go. -/
structure StyleSettings where
  minNameLength : Int
  maxNameLength : Int
  namingConvention : Str
  checkoutFirst : Bool
  requireStepNames : Bool
  maxRunLines : Int
  deriving Repr

/-- `StyleLinter.checkNameLength`: too-short or too-long names produce a
message, otherwise the message stays empty and `newIssue` yields nil. -/
def checkNameLength (s : StyleSettings) (name file : Str) (line : Int) (context : Str) :
    Option Issue :=
  let msg :=
    if s.minNameLength > 0 ∧ (name.length : Int) < s.minNameLength then
      context ++ str " name '" ++ name ++ str "' is too short (min " ++
        intToStr s.minNameLength ++ str " chars)"
    else if s.maxNameLength > 0 ∧ (name.length : Int) > s.maxNameLength then
      context ++ str " name exceeds maximum length of " ++
        intToStr s.maxNameLength ++ str " characters"
    else []
  newIssue file line msg

/-- `strings.Fields`, auxiliary over the remaining characters and the
current word (reversed). -/
def fieldsAux : Str → Str → List Str
  | [], acc => if acc = [] then [] else [acc.reverse]
  | c :: rest, acc =>
    if goSpace c then
      if acc = [] then fieldsAux rest [] else acc.reverse :: fieldsAux rest []
    else fieldsAux rest (c :: acc)

/-- `strings.Fields`: whitespace-separated words. -/
def fields (s : Str) : List Str := fieldsAux s []

/-- Whether a word exists whose first character is not upper case (ASCII,
matching `unicode.IsUpper(rune(word[0]))` on the ASCII inputs). -/
def wordFirstNotUpper : Str → Bool
  | [] => false
  | c :: _ => ¬ c.isUpper

/-- `StyleLinter.checkNamingConvention`: empty convention or no words means
no check; `title` requires every word to start upper case; `sentence`
requires the first word to start upper case. -/
def checkNamingConvention (s : StyleSettings) (name file : Str) (line : Int) (context : Str) :
    Option Issue :=
  if s.namingConvention = [] then none
  else
    let words := fields name
    match words with
    | [] => none
    | w0 :: _ =>
      let msg :=
        if s.namingConvention = str "title" then
          if words.any wordFirstNotUpper then context ++ str " name should use Title Case"
          else []
        else if s.namingConvention = str "sentence" then
          if wordFirstNotUpper w0 then
            context ++ str " name should start with uppercase (sentence case)"
          else []
        else []
      newIssue file line msg

/-- The parsed workflow summary, as far as the style checks read it. -/
structure WorkflowContent where
  name : Str
  deriving Repr

/-- `StyleLinter.checkWorkflowName`: missing or empty name is reported;
otherwise the length and convention checks contribute an issue only when
they return one (nil results are not appended). -/
def checkWorkflowName (s : StyleSettings) (content : Option WorkflowContent) (file : Str) :
    List Issue :=
  match content with
  | none => (newIssue file 1 (str "Workflow is missing a name")).toList
  | some ct =>
    if ct.name = [] then (newIssue file 1 (str "Workflow is missing a name")).toList
    else
      (checkNameLength s ct.name file 1 (str "Workflow")).toList ++
      (checkNamingConvention s ct.name file 1 (str "Workflow")).toList

/-- C9: `newIssue` returns nil exactly on the empty message, every issue it
produces carries its non-empty message; a name-length check with nothing
wrong contributes no issue, and every issue coming out of the length check,
the convention check, or the workflow-name check has a non-empty message. -/
theorem newIssue_nonempty_message :
    (∀ (file : Str) (line : Int), newIssue file line [] = none) ∧
    (∀ (file : Str) (line : Int) (m : Str) (i : Issue),
      newIssue file line m = some i → i.message = m ∧ m ≠ []) ∧
    (∀ (s : StyleSettings) (name file : Str) (line : Int) (context : Str),
      ¬ (s.minNameLength > 0 ∧ (name.length : Int) < s.minNameLength) →
      ¬ (s.maxNameLength > 0 ∧ (name.length : Int) > s.maxNameLength) →
      checkNameLength s name file line context = none) ∧
    (∀ (s : StyleSettings) (name file : Str) (line : Int) (context : Str) (i : Issue),
      checkNameLength s name file line context = some i → i.message ≠ []) ∧
    (∀ (s : StyleSettings) (name file : Str) (line : Int) (context : Str) (i : Issue),
      checkNamingConvention s name file line context = some i → i.message ≠ []) ∧
    (∀ (s : StyleSettings) (content : Option WorkflowContent) (file : Str),
      ∀ i ∈ checkWorkflowName s content file, i.message ≠ []) := by
  have hsome : ∀ (file : Str) (line : Int) (m : Str) (i : Issue),
      newIssue file line m = some i → i.message = m ∧ m ≠ [] := by
    intro file line m i h
    unfold newIssue at h
    by_cases hm : m = []
    · simp [hm] at h
    · rw [if_neg hm] at h
      injection h with h
      subst h
      exact ⟨rfl, hm⟩
  refine ⟨fun file line => rfl, hsome, ?_, ?_, ?_, ?_⟩
  · intro s name file line context h1 h2
    unfold checkNameLength
    rw [if_neg h1, if_neg h2]
    rfl
  · intro s name file line context i h
    unfold checkNameLength at h
    obtain ⟨hm, hne⟩ := hsome _ _ _ _ h
    rw [hm]
    exact hne
  · intro s name file line context i h
    unfold checkNamingConvention at h
    by_cases hc : s.namingConvention = []
    · simp [hc] at h
    · rw [if_neg hc] at h
      cases hw : fields name with
      | nil => rw [hw] at h; exact absurd h (by simp)
      | cons w0 ws =>
        rw [hw] at h
        obtain ⟨hm, hne⟩ := hsome _ _ _ _ h
        rw [hm]
        exact hne
  · intro s content file i hi
    cases content with
    | none =>
      simp only [checkWorkflowName] at hi
      cases hni : newIssue file 1 (str "Workflow is missing a name") with
      | none => rw [hni] at hi; simp at hi
      | some j =>
        rw [hni] at hi
        simp at hi
        subst hi
        obtain ⟨hm, hne⟩ := hsome _ _ _ _ hni
        rw [hm]
        exact hne
    | some ct =>
      simp only [checkWorkflowName] at hi
      by_cases hn : ct.name = []
      · rw [if_pos hn] at hi
        cases hni : newIssue file 1 (str "Workflow is missing a name") with
        | none => rw [hni] at hi; simp at hi
        | some j =>
          rw [hni] at hi
          simp at hi
          subst hi
          obtain ⟨hm, hne⟩ := hsome _ _ _ _ hni
          rw [hm]
          exact hne
      · rw [if_neg hn] at hi
        rcases List.mem_append.mp hi with hin | hin
        · cases hni : checkNameLength s ct.name file 1 (str "Workflow") with
          | none => rw [hni] at hin; simp at hin
          | some j =>
            rw [hni] at hin
            simp at hin
            subst hin
            unfold checkNameLength at hni
            obtain ⟨hm, hne⟩ := hsome _ _ _ _ hni
            rw [hm]
            exact hne
        · cases hni : checkNamingConvention s ct.name file 1 (str "Workflow") with
          | none => rw [hni] at hin; simp at hin
          | some j =>
            rw [hni] at hin
            simp at hin
            subst hin
            unfold checkNamingConvention at hni
            by_cases hc : s.namingConvention = []
            · simp [hc] at hni
            · rw [if_neg hc] at hni
              cases hw : fields ct.name with
              | nil => rw [hw] at hni; exact absurd hni (by simp)
              | cons w0 ws =>
                rw [hw] at hni
                obtain ⟨hm, hne⟩ := hsome _ _ _ _ hni
                rw [hm]
                exact hne

/-- Default style settings with the title naming convention. -/
def wStyle : StyleSettings :=
  { minNameLength := 3, maxNameLength := 50, namingConvention := str "title",
    checkoutFirst := false, requireStepNames := false, maxRunLines := 0 }

/-- Witness for C9 at concrete inputs: the empty message gives no issue, a
produced issue carries its non-empty message, and a compliant name yields
no length issue. -/
theorem newIssue_nonempty_message_witness :
    newIssue (str "ci.yml") 1 [] = none ∧
    ((⟨str "ci.yml", 1, [], str "m"⟩ : Issue).message = str "m" ∧ str "m" ≠ ([] : Str)) ∧
    checkNameLength wStyle (str "Build and test") (str "ci.yml") 1 (str "Workflow") = none := by
  have h := newIssue_nonempty_message
  exact ⟨h.1 (str "ci.yml") 1,
         h.2.1 (str "ci.yml") 1 (str "m") ⟨str "ci.yml", 1, [], str "m"⟩ (by decide),
         h.2.2.1 wStyle (str "Build and test") (str "ci.yml") 1 (str "Workflow")
           (by decide) (by decide)⟩

/- ===================== FormatLinter.FixWorkflow (format fixer) ===================== -/

/-- `FormatSettings` from internal/config/format_settings.go. -/
structure FormatSettings where
  indentWidth : Int
  maxLineLength : Int
  deriving Repr

/-- `stringutil.IsBlankOrComment`: blank after trimming, or a comment. -/
def IsBlankOrComment (line : Str) : Bool :=
  let trimmed := trimSpace line
  trimmed = [] || (['#'] : Str).isPrefixOf trimmed

/-- `FormatLinter.fixIndentation`: reduces indentation when it increases by
more than the configured indent width over the previous line. -/
def fixIndentation (s : Option FormatSettings) (prevIndent : Nat) (line : Str) : Str :=
  match s with
  | none => line
  | some st =>
    if st.indentWidth ≤ 0 then line
    else if IsBlankOrComment line then line
    else
      let leadingSpaces := countLeadingSpaces line
      if leadingSpaces ≤ prevIndent then line
      else if leadingSpaces - prevIndent ≤ st.indentWidth.toNat then line
      else
        let correctIndent := prevIndent + st.indentWidth.toNat
        List.replicate correctIndent ' ' ++ trimLeftST line

/-- The loop of `FormatLinter.fixLines` with its two state variables made
explicit: returns the fixed lines plus the final (prevWasBlank, prevIndent)
state. Each line is trimmed of trailing whitespace, over-indentation is
reduced, consecutive blank lines collapse to one, and only non-blank lines
update the previous indentation. -/
def fixGoSt (s : Option FormatSettings) (b : Bool) (p : Nat) :
    List Str → List Str × Bool × Nat
  | [] => ([], b, p)
  | line :: rest =>
    let l2 := fixIndentation s p (trimRightST line)
    if trimSpace l2 = [] then
      let r := fixGoSt s true p rest
      (if b then r.1 else l2 :: r.1, r.2)
    else
      let r := fixGoSt s false (countLeadingSpaces l2) rest
      (l2 :: r.1, r.2)

/-- `FormatLinter.fixLines`. -/
def fixLines (s : Option FormatSettings) (lines : List Str) : List Str :=
  (fixGoSt s false 0 lines).1

/-- The trailing-empty-line removal loop of `FormatLinter.fixWorkflow`. -/
def dropTrailingEmpty (lines : List Str) : List Str :=
  (lines.reverse.dropWhile (fun l => trimSpace l = [])).reverse

/-- `FormatLinter.fixWorkflow` on the raw content: split into lines, fix,
drop trailing empty lines, and join with a final newline. -/
def fixWorkflowContent (s : Option FormatSettings) (raw : Str) : Str :=
  joinNL (dropTrailingEmpty (fixLines s (splitNL raw))) ++ ['\n']

/- ===================== idempotence: trim and blank lemmas ===================== -/

theorem dropWhile_dropWhile (p : Char → Bool) (l : List Char) :
    (l.dropWhile p).dropWhile p = l.dropWhile p := by
  induction l with
  | nil => rfl
  | cons c t ih =>
    by_cases hc : p c
    · simp [List.dropWhile_cons, hc, ih]
    · simp [List.dropWhile_cons, hc]

theorem trimRightST_idem (l : Str) : trimRightST (trimRightST l) = trimRightST l := by
  unfold trimRightST
  rw [List.reverse_reverse, dropWhile_dropWhile]

theorem trimSpace_eq_nil_iff (l : Str) : trimSpace l = [] ↔ ∀ c ∈ l, goSpace c = true := by
  unfold trimSpace
  constructor
  · intro h c hc
    rw [List.reverse_eq_nil_iff, List.dropWhile_eq_nil_iff] at h
    have hsplit := List.takeWhile_append_dropWhile (p := goSpace) (l := l)
    rw [← hsplit] at hc
    rcases List.mem_append.mp hc with h1 | h2
    · exact List.mem_takeWhile_imp h1
    · exact h c (List.mem_reverse.mpr h2)
  · intro h
    have hd : l.dropWhile goSpace = [] :=
      List.dropWhile_eq_nil_iff.mpr fun c hc => h c hc
    rw [hd]
    rfl

theorem dropWhile_eq_self_of_head (p : Char → Bool) (l : List Char)
    (h : ∀ c, l.head? = some c → p c = false) : l.dropWhile p = l := by
  cases l with
  | nil => rfl
  | cons c t => simp [List.dropWhile_cons, h c rfl]

theorem trimRightST_eq_self {l : Str}
    (h : ∀ c, l.getLast? = some c → isSpaceTab c = false) : trimRightST l = l := by
  unfold trimRightST
  rw [dropWhile_eq_self_of_head]
  · exact l.reverse_reverse
  · intro c hc
    apply h
    rwa [List.head?_reverse] at hc

theorem last_not_spaceTab_of_trimRightST_eq {l : Str} (hl : trimRightST l = l) :
    ∀ c, l.getLast? = some c → isSpaceTab c = false := by
  intro c hc
  by_contra hcon
  rw [Bool.not_eq_false] at hcon
  have hrev : l.reverse.head? = some c := by rwa [List.head?_reverse]
  obtain ⟨t, ht⟩ : ∃ t, l.reverse = c :: t := by
    cases hr : l.reverse with
    | nil => rw [hr] at hrev; simp at hrev
    | cons a t =>
      rw [hr] at hrev
      simp at hrev
      subst hrev
      exact ⟨t, rfl⟩
  have hlen : (trimRightST l).length < l.length := by
    unfold trimRightST
    rw [ht, List.dropWhile_cons_of_pos hcon, List.length_reverse]
    have := (List.dropWhile_sublist (p := isSpaceTab) (l := t)).length_le
    have hlen2 : l.length = t.length + 1 := by
      have := congrArg List.length ht
      simpa using this
    omega
  rw [hl] at hlen
  omega

/-- A blank line (all whitespace) is blank or comment. -/
theorem isBlankOrComment_of_blank {l : Str} (h : trimSpace l = []) :
    IsBlankOrComment l = true := by
  unfold IsBlankOrComment
  simp [h]

/-- Trimming trailing space/tab preserves blankness. -/
theorem trimSpace_trimRightST_of_blank {l : Str} (h : trimSpace l = []) :
    trimSpace (trimRightST l) = [] := by
  rw [trimSpace_eq_nil_iff] at h ⊢
  intro c hc
  apply h
  unfold trimRightST at hc
  rw [List.mem_reverse] at hc
  have := List.dropWhile_sublist (p := isSpaceTab) (l := l.reverse)
  exact List.mem_reverse.mp (this.mem hc)

/- ===================== idempotence: fixIndentation lemmas ===================== -/

theorem fixIndentation_blank {l : Str} (s : Option FormatSettings) (p : Nat)
    (h : trimSpace l = []) : fixIndentation s p l = l := by
  cases s with
  | none => rfl
  | some st =>
    unfold fixIndentation
    by_cases hW : st.indentWidth ≤ 0
    · simp [hW]
    · simp [hW, isBlankOrComment_of_blank h]

theorem head_dropWhile_not {α : Type} (p : α → Bool) (l : List α) :
    ∀ c, ((l.dropWhile p).head? = some c) → p c = false := by
  induction l with
  | nil => intro c hc; simp at hc
  | cons a t ih =>
    intro c hc
    by_cases ha : p a
    · rw [List.dropWhile_cons_of_pos ha] at hc
      exact ih c hc
    · rw [List.dropWhile_cons_of_neg ha] at hc
      simp at hc
      subst hc
      exact Bool.eq_false_iff.mpr ha

theorem countLeadingSpaces_replicate_append (k : Nat) (w : Str) :
    countLeadingSpaces (List.replicate k ' ' ++ w) = k + countLeadingSpaces w := by
  induction k with
  | zero => simp [countLeadingSpaces]
  | succ n ih =>
    simp only [List.replicate_succ, List.cons_append]
    unfold countLeadingSpaces at ih ⊢
    simp [List.takeWhile_cons]
    omega

theorem countLeadingSpaces_trimLeftST (l : Str) : countLeadingSpaces (trimLeftST l) = 0 := by
  unfold countLeadingSpaces trimLeftST
  cases hh : (l.dropWhile isSpaceTab).head? with
  | none =>
    have : l.dropWhile isSpaceTab = [] := by
      cases hd : l.dropWhile isSpaceTab with
      | nil => rfl
      | cons a t => rw [hd] at hh; simp at hh
    simp [this]
  | some c =>
    have hc := head_dropWhile_not isSpaceTab l c hh
    have hcs : ¬ (c = ' ') := by
      intro hsp
      subst hsp
      simp [isSpaceTab] at hc
    cases hd : l.dropWhile isSpaceTab with
    | nil => simp
    | cons a t =>
      rw [hd] at hh
      simp at hh
      subst hh
      simp [List.takeWhile_cons, hcs]

theorem isSpaceTab_goSpace {c : Char} (h : isSpaceTab c = true) : goSpace c = true := by
  unfold isSpaceTab at h
  unfold goSpace
  rcases Bool.or_eq_true_iff.mp h with h1 | h1 <;> simp [h1]

theorem trimLeftST_ne_nil_of_not_blank {l : Str} (h : trimSpace l ≠ []) :
    trimLeftST l ≠ [] := by
  intro hcon
  apply h
  rw [trimSpace_eq_nil_iff]
  intro c hc
  have hall := List.dropWhile_eq_nil_iff.mp hcon
  exact isSpaceTab_goSpace (hall c hc)

theorem not_blank_of_not_isBlankOrComment {l : Str} (h : ¬ IsBlankOrComment l = true) :
    trimSpace l ≠ [] := by
  intro hcon
  exact h (isBlankOrComment_of_blank hcon)

/-- The over-indentation rewrite keeps lines free of trailing whitespace. -/
theorem trimRightST_fixIndentation {l : Str} (s : Option FormatSettings) (p : Nat)
    (hl : trimRightST l = l) :
    trimRightST (fixIndentation s p l) = fixIndentation s p l := by
  cases s with
  | none => exact hl
  | some st =>
    simp only [fixIndentation]
    by_cases hW : st.indentWidth ≤ 0
    · simp only [if_pos hW]
      exact hl
    · rw [if_neg hW]
      by_cases hbc : IsBlankOrComment l = true
      · rw [if_pos hbc]
        exact hl
      · rw [if_neg hbc]
        by_cases hle : countLeadingSpaces l ≤ p
        · rw [if_pos hle]
          exact hl
        · rw [if_neg hle]
          by_cases hinc : countLeadingSpaces l - p ≤ st.indentWidth.toNat
          · rw [if_pos hinc]
            exact hl
          · rw [if_neg hinc]
            have hne : trimLeftST l ≠ [] :=
              trimLeftST_ne_nil_of_not_blank (not_blank_of_not_isBlankOrComment hbc)
            apply trimRightST_eq_self
            intro c hc
            rw [List.getLast?_append_of_ne_nil _ hne] at hc
            have hlast : l.getLast? = some c := by
              have hsplit := List.takeWhile_append_dropWhile (p := isSpaceTab) (l := l)
              conv_lhs => rw [← hsplit]
              rw [List.getLast?_append_of_ne_nil _
                (show l.dropWhile isSpaceTab ≠ [] from hne)]
              exact hc
            exact last_not_spaceTab_of_trimRightST_eq hl c hlast

/-- Re-fixing the indentation of an already fixed line changes nothing. -/
theorem fixIndentation_idem (s : Option FormatSettings) (p : Nat) (l : Str) :
    fixIndentation s p (fixIndentation s p l) = fixIndentation s p l := by
  cases s with
  | none => rfl
  | some st =>
    by_cases hW : st.indentWidth ≤ 0
    · simp [fixIndentation, hW]
    · by_cases hbc : IsBlankOrComment l = true
      · simp [fixIndentation, hW, hbc]
      · by_cases hle : countLeadingSpaces l ≤ p
        · simp [fixIndentation, hW, hbc, hle]
        · by_cases hinc : countLeadingSpaces l - p ≤ st.indentWidth.toNat
          · simp [fixIndentation, hW, hbc, hle, hinc]
          · have h1 : fixIndentation (some st) p l =
                List.replicate (p + st.indentWidth.toNat) ' ' ++ trimLeftST l := by
              simp [fixIndentation, hW, hbc, hle, hinc]
            rw [h1]
            have hcount : countLeadingSpaces
                (List.replicate (p + st.indentWidth.toNat) ' ' ++ trimLeftST l) =
                p + st.indentWidth.toNat := by
              rw [countLeadingSpaces_replicate_append, countLeadingSpaces_trimLeftST]
              omega
            have hWpos : 0 < st.indentWidth.toNat := by omega
            simp only [fixIndentation]
            rw [if_neg hW]
            by_cases hbc2 : IsBlankOrComment
                (List.replicate (p + st.indentWidth.toNat) ' ' ++ trimLeftST l) = true
            · rw [if_pos hbc2]
            · rw [if_neg hbc2, hcount, if_neg (by omega), if_pos (by omega)]

/- ===================== idempotence: fixGoSt lemmas ===================== -/

theorem fixGoSt_cons (s : Option FormatSettings) (b : Bool) (p : Nat) (line : Str)
    (rest : List Str) :
    fixGoSt s b p (line :: rest) =
      if trimSpace (fixIndentation s p (trimRightST line)) = [] then
        ((if b then (fixGoSt s true p rest).1
          else fixIndentation s p (trimRightST line) :: (fixGoSt s true p rest).1),
         (fixGoSt s true p rest).2)
      else
        (fixIndentation s p (trimRightST line) ::
           (fixGoSt s false (countLeadingSpaces (fixIndentation s p (trimRightST line))) rest).1,
         (fixGoSt s false (countLeadingSpaces (fixIndentation s p (trimRightST line))) rest).2) := by
  rfl

/-- Every line output by the fix loop is already free of trailing
whitespace. -/
theorem fixGoSt_trimRight (s : Option FormatSettings) :
    ∀ (ls : List Str) (b : Bool) (p : Nat), ∀ l ∈ (fixGoSt s b p ls).1, trimRightST l = l := by
  intro ls
  induction ls with
  | nil => intro b p l hl; simp [fixGoSt] at hl
  | cons line rest ih =>
    intro b p l hl
    have hst : trimRightST (fixIndentation s p (trimRightST line)) =
        fixIndentation s p (trimRightST line) :=
      trimRightST_fixIndentation s p (trimRightST_idem line)
    rw [fixGoSt_cons] at hl
    by_cases hb : trimSpace (fixIndentation s p (trimRightST line)) = []
    · rw [if_pos hb] at hl
      cases b with
      | true => exact ih true p l hl
      | false =>
        simp only [if_neg (by simp : ¬ (false = true))] at hl
        rcases List.mem_cons.mp hl with rfl | hl'
        · exact hst
        · exact ih true p l hl'
    · rw [if_neg hb] at hl
      rcases List.mem_cons.mp hl with rfl | hl'
      · exact hst
      · exact ih false _ l hl'

/-- Re-running the fix loop on its own output from the same initial state
changes nothing. -/
theorem fixGoSt_idem (s : Option FormatSettings) :
    ∀ (ls : List Str) (b : Bool) (p : Nat),
      (fixGoSt s b p ((fixGoSt s b p ls).1)).1 = (fixGoSt s b p ls).1 := by
  intro ls
  induction ls with
  | nil => intro b p; rfl
  | cons line rest ih =>
    intro b p
    have e1 : trimRightST (fixIndentation s p (trimRightST line)) =
        fixIndentation s p (trimRightST line) :=
      trimRightST_fixIndentation s p (trimRightST_idem line)
    by_cases hb : trimSpace (fixIndentation s p (trimRightST line)) = []
    · have e2 : fixIndentation s p (fixIndentation s p (trimRightST line)) =
          fixIndentation s p (trimRightST line) :=
        fixIndentation_blank s p hb
      cases b with
      | true =>
        rw [fixGoSt_cons, if_pos hb]
        simp only [if_pos rfl]
        exact ih true p
      | false =>
        rw [fixGoSt_cons, if_pos hb]
        simp only [if_neg (by simp : ¬ (false = true))]
        rw [fixGoSt_cons, e1, e2, if_pos hb]
        simp only [if_neg (by simp : ¬ (false = true))]
        rw [ih true p]
    · have e2 : fixIndentation s p (fixIndentation s p (trimRightST line)) =
          fixIndentation s p (trimRightST line) :=
        fixIndentation_idem s p (trimRightST line)
      rw [fixGoSt_cons, if_neg hb, fixGoSt_cons, e1, e2, if_neg hb]
      rw [ih false (countLeadingSpaces (fixIndentation s p (trimRightST line)))]

theorem fixGoSt_append (s : Option FormatSettings) :
    ∀ (xs : List Str) (b : Bool) (p : Nat) (ys : List Str),
      fixGoSt s b p (xs ++ ys) =
        ((fixGoSt s b p xs).1 ++
           (fixGoSt s (fixGoSt s b p xs).2.1 (fixGoSt s b p xs).2.2 ys).1,
         (fixGoSt s (fixGoSt s b p xs).2.1 (fixGoSt s b p xs).2.2 ys).2) := by
  intro xs
  induction xs with
  | nil => intro b p ys; simp [fixGoSt]
  | cons line rest ih =>
    intro b p ys
    rw [List.cons_append, fixGoSt_cons, fixGoSt_cons]
    by_cases hb : trimSpace (fixIndentation s p (trimRightST line)) = []
    · rw [if_pos hb, if_pos hb, ih true p ys]
      cases b <;> simp
    · rw [if_neg hb, if_neg hb,
        ih false (countLeadingSpaces (fixIndentation s p (trimRightST line))) ys]
      simp

theorem fixGoSt_length (s : Option FormatSettings) :
    ∀ (ls : List Str) (b : Bool) (p : Nat), (fixGoSt s b p ls).1.length ≤ ls.length := by
  intro ls
  induction ls with
  | nil => intro b p; simp [fixGoSt]
  | cons line rest ih =>
    intro b p
    rw [fixGoSt_cons]
    by_cases hb : trimSpace (fixIndentation s p (trimRightST line)) = []
    · rw [if_pos hb]
      have hlen := ih true p
      cases b <;> simp <;> omega
    · rw [if_neg hb]
      have := ih false (countLeadingSpaces (fixIndentation s p (trimRightST line)))
      simp only [List.length_cons]
      omega

theorem fixGoSt_all_blank (s : Option FormatSettings) :
    ∀ (ls : List Str) (b : Bool) (p : Nat), (∀ l ∈ ls, trimSpace l = []) →
      ∀ l ∈ (fixGoSt s b p ls).1, trimSpace l = [] := by
  intro ls
  induction ls with
  | nil => intro b p _ l hl; simp [fixGoSt] at hl
  | cons line rest ih =>
    intro b p hall l hl
    have hline : trimSpace line = [] := hall line (List.mem_cons_self _ _)
    have hrest : ∀ l ∈ rest, trimSpace l = [] :=
      fun l hl => hall l (List.mem_cons_of_mem _ hl)
    have h1 : trimSpace (trimRightST line) = [] := trimSpace_trimRightST_of_blank hline
    have h2 : fixIndentation s p (trimRightST line) = trimRightST line :=
      fixIndentation_blank s p h1
    have hb : trimSpace (fixIndentation s p (trimRightST line)) = [] := by rw [h2]; exact h1
    rw [fixGoSt_cons, if_pos hb] at hl
    cases b with
    | true => exact ih true p hrest l hl
    | false =>
      simp only [if_neg (by simp : ¬ (false = true))] at hl
      rcases List.mem_cons.mp hl with rfl | hl'
      · rw [h2]; exact h1
      · exact ih true p hrest l hl'

theorem dropWhileP_append_of_all {α : Type} (p : α → Bool) (xs ys : List α)
    (h : ∀ x ∈ xs, p x = true) : (xs ++ ys).dropWhile p = ys.dropWhile p := by
  induction xs with
  | nil => rfl
  | cons a t ih =>
    rw [List.cons_append, List.dropWhile_cons_of_pos (h a (List.mem_cons_self _ _))]
    exact ih fun x hx => h x (List.mem_cons_of_mem _ hx)

theorem dropWhileP_idem {α : Type} (p : α → Bool) (l : List α) :
    (l.dropWhile p).dropWhile p = l.dropWhile p := by
  induction l with
  | nil => rfl
  | cons c t ih =>
    by_cases hc : p c
    · simp [List.dropWhile_cons, hc, ih]
    · simp [List.dropWhile_cons, hc]

/-- Decomposition: a list is its trailing-blank-free front plus blanks. -/
theorem dropTrailingEmpty_decomp (ls : List Str) :
    ∃ bs, ls = dropTrailingEmpty ls ++ bs ∧ ∀ l ∈ bs, trimSpace l = [] := by
  refine ⟨(ls.reverse.takeWhile (fun l => trimSpace l = [])).reverse, ?_, ?_⟩
  · unfold dropTrailingEmpty
    rw [← List.reverse_append, List.takeWhile_append_dropWhile, List.reverse_reverse]
  · intro l hl
    rw [List.mem_reverse] at hl
    have := List.mem_takeWhile_imp hl
    simpa using this

/-- The trailing-blank-free front ends in a non-blank line (or is empty). -/
theorem dropTrailingEmpty_getLast (ls : List Str) :
    dropTrailingEmpty ls = [] ∨
      ∃ l, (dropTrailingEmpty ls).getLast? = some l ∧ trimSpace l ≠ [] := by
  unfold dropTrailingEmpty
  cases hd : ls.reverse.dropWhile (fun l => trimSpace l = []) with
  | nil => exact Or.inl rfl
  | cons a t =>
    right
    refine ⟨a, ?_, ?_⟩
    · simp
    · have := head_dropWhile_not (fun l => decide (trimSpace l = [])) ls.reverse a
        (by rw [hd]; rfl)
      simpa using this

theorem dropTrailingEmpty_append_blank (ls bs : List Str)
    (h : ∀ l ∈ bs, trimSpace l = []) :
    dropTrailingEmpty (ls ++ bs) = dropTrailingEmpty ls := by
  unfold dropTrailingEmpty
  rw [List.reverse_append, dropWhileP_append_of_all]
  intro x hx
  rw [List.mem_reverse] at hx
  simp [h x hx]

theorem dropTrailingEmpty_idem (ls : List Str) :
    dropTrailingEmpty (dropTrailingEmpty ls) = dropTrailingEmpty ls := by
  unfold dropTrailingEmpty
  rw [List.reverse_reverse, dropWhileP_idem]

/-- Dropping the trailing blanks of the fixed lines yields a list the fix
loop maps to itself. -/
theorem fixGoSt_dropTrailing (s : Option FormatSettings) (ls : List Str) :
    (fixGoSt s false 0 (dropTrailingEmpty (fixGoSt s false 0 ls).1)).1 =
      dropTrailingEmpty (fixGoSt s false 0 ls).1 := by
  obtain ⟨bs, hdec, hbs⟩ := dropTrailingEmpty_decomp (fixGoSt s false 0 ls).1
  have hOO : (fixGoSt s false 0 ((fixGoSt s false 0 ls).1)).1 = (fixGoSt s false 0 ls).1 :=
    fixGoSt_idem s ls false 0
  set D := dropTrailingEmpty (fixGoSt s false 0 ls).1 with hD
  set fixD := (fixGoSt s false 0 D).1 with hfixD
  set rest := (fixGoSt s (fixGoSt s false 0 D).2.1 (fixGoSt s false 0 D).2.2 bs).1 with hrest
  have heq : fixD ++ rest = D ++ bs := by
    have happ := fixGoSt_append s D false 0 bs
    have h2 : (fixGoSt s false 0 (D ++ bs)).1 = fixD ++ rest := by rw [happ]
    rw [← hdec, hOO] at h2
    rw [hdec] at h2
    exact h2.symm
  have hlen : fixD.length ≤ D.length := fixGoSt_length s D false 0
  have hrestblank : ∀ l ∈ rest, trimSpace l = [] := fixGoSt_all_blank s bs _ _ hbs
  have htake : fixD = D.take fixD.length := by
    have h1 := congrArg (List.take fixD.length) heq
    rw [List.take_append_of_le_length (le_refl fixD.length), List.take_length,
      List.take_append_of_le_length hlen] at h1
    exact h1
  have hdrop : rest = D.drop fixD.length ++ bs := by
    have h1 := congrArg (List.drop fixD.length) heq
    rw [List.drop_append_of_le_length (le_refl fixD.length), List.drop_length,
      List.nil_append, List.drop_append_of_le_length hlen] at h1
    exact h1
  have htblank : ∀ l ∈ D.drop fixD.length, trimSpace l = [] := by
    intro l hl
    exact hrestblank l (by rw [hdrop]; exact List.mem_append.mpr (Or.inl hl))
  have ht : D.drop fixD.length = [] := by
    by_contra hne
    rcases dropTrailingEmpty_getLast (fixGoSt s false 0 ls).1 with hDnil | ⟨last, hlast, hlastne⟩
    · rw [← hD] at hDnil
      rw [hDnil] at hne
      exact hne (by simp)
    · rw [← hD] at hlast
      have hsplit : D.take fixD.length ++ D.drop fixD.length = D :=
        List.take_append_drop _ _
      have hlast2 : D.getLast? = (D.drop fixD.length).getLast? := by
        conv_lhs => rw [← hsplit]
        rw [List.getLast?_append_of_ne_nil _ hne]
      obtain ⟨l', hl'⟩ : ∃ l', (D.drop fixD.length).getLast? = some l' := by
        cases hgl : (D.drop fixD.length).getLast? with
        | none => exact absurd (List.getLast?_eq_none_iff.mp hgl) hne
        | some l' => exact ⟨l', rfl⟩
      obtain ⟨hne2, hx⟩ := List.mem_getLast?_eq_getLast
        (l := D.drop fixD.length) (x := l') (by simp [hl'])
      have hl'mem : l' ∈ D.drop fixD.length := by
        rw [hx]
        exact List.getLast_mem hne2
      have hblank' : trimSpace l' = [] := htblank l' hl'mem
      rw [hlast2, hl'] at hlast
      injection hlast with hlast
      rw [hlast] at hblank'
      exact hlastne hblank'
  have hge : D.length ≤ fixD.length := by
    have := congrArg List.length ht
    simp at this
    omega
  rw [htake, List.take_of_length_le hge]

/- ===================== idempotence: split/join lemmas ===================== -/

theorem splitNLAux_no_newline (s : Str) :
    ('\n' ∉ (splitNLAux s).1) ∧ (∀ l ∈ (splitNLAux s).2, '\n' ∉ l) := by
  induction s with
  | nil => exact ⟨List.not_mem_nil _, fun l hl => absurd hl (List.not_mem_nil _)⟩
  | cons c cs ih =>
    by_cases hc : c = '\n'
    · subst hc
      refine ⟨List.not_mem_nil _, ?_⟩
      intro l hl
      simp only [splitNLAux, if_pos rfl] at hl
      rcases List.mem_cons.mp hl with rfl | hl'
      · exact ih.1
      · exact ih.2 l hl'
    · constructor
      · simp only [splitNLAux, if_neg hc]
        intro hmem
        rcases List.mem_cons.mp hmem with heq | hmem'
        · exact hc heq.symm
        · exact ih.1 hmem'
      · intro l hl
        simp only [splitNLAux, if_neg hc] at hl
        exact ih.2 l hl

theorem splitNL_no_newline (s : Str) : ∀ l ∈ splitNL s, '\n' ∉ l := by
  intro l hl
  unfold splitNL at hl
  rcases List.mem_cons.mp hl with rfl | hl'
  · exact (splitNLAux_no_newline s).1
  · exact (splitNLAux_no_newline s).2 l hl'

theorem splitNLAux_append (l : Str) (cs : Str) (h : '\n' ∉ l) :
    splitNLAux (l ++ '\n' :: cs) = (l, (splitNLAux cs).1 :: (splitNLAux cs).2) := by
  induction l with
  | nil => simp [splitNLAux]
  | cons c t ih =>
    have hc : ¬ (c = '\n') := fun hcc => h (hcc ▸ List.mem_cons_self _ _)
    have ht : '\n' ∉ t := fun hm => h (List.mem_cons_of_mem _ hm)
    rw [List.cons_append]
    simp only [splitNLAux, if_neg hc, ih ht]

theorem splitNL_joinNL_newline :
    ∀ (D : List Str), D ≠ [] → (∀ l ∈ D, '\n' ∉ l) →
      splitNL (joinNL D ++ ['\n']) = D ++ [[]] := by
  intro D
  induction D with
  | nil => intro h; exact absurd rfl h
  | cons d rest ih =>
    intro _ hnn
    cases rest with
    | nil =>
      have hd : '\n' ∉ d := hnn d (List.mem_cons_self _ _)
      show splitNL (joinNL [d] ++ ['\n']) = [d] ++ [[]]
      have hj : joinNL [d] = d := rfl
      rw [hj]
      unfold splitNL
      rw [show (['\n'] : Str) = '\n' :: [] from rfl, splitNLAux_append d [] hd]
      rfl
    | cons d' rest' =>
      have hd : '\n' ∉ d := hnn d (List.mem_cons_self _ _)
      have hrest : ∀ l ∈ d' :: rest', '\n' ∉ l :=
        fun l hl => hnn l (List.mem_cons_of_mem _ hl)
      have hjoin : joinNL (d :: d' :: rest') = d ++ '\n' :: joinNL (d' :: rest') := rfl
      rw [hjoin, List.append_assoc, List.cons_append]
      unfold splitNL
      rw [splitNLAux_append d _ hd]
      have hih := ih (by simp) hrest
      unfold splitNL at hih
      show d :: ((splitNLAux (joinNL (d' :: rest') ++ ['\n'])).1 ::
          (splitNLAux (joinNL (d' :: rest') ++ ['\n'])).2) = (d :: d' :: rest') ++ [[]]
      rw [hih]
      simp

/- ===================== idempotence: newline preservation ===================== -/

theorem no_newline_trimRightST {l : Str} (h : '\n' ∉ l) : '\n' ∉ trimRightST l := by
  intro hc
  apply h
  unfold trimRightST at hc
  rw [List.mem_reverse] at hc
  exact List.mem_reverse.mp ((List.dropWhile_sublist _).mem hc)

theorem no_newline_fixIndentation (s : Option FormatSettings) (p : Nat) {l : Str}
    (h : '\n' ∉ l) : '\n' ∉ fixIndentation s p l := by
  cases s with
  | none => exact h
  | some st =>
    simp only [fixIndentation]
    by_cases hW : st.indentWidth ≤ 0
    · rw [if_pos hW]; exact h
    · rw [if_neg hW]
      by_cases hbc : IsBlankOrComment l = true
      · rw [if_pos hbc]; exact h
      · rw [if_neg hbc]
        by_cases hle : countLeadingSpaces l ≤ p
        · rw [if_pos hle]; exact h
        · rw [if_neg hle]
          by_cases hinc : countLeadingSpaces l - p ≤ st.indentWidth.toNat
          · rw [if_pos hinc]; exact h
          · rw [if_neg hinc]
            intro hc
            rcases List.mem_append.mp hc with hrep | htl
            · have := List.eq_of_mem_replicate hrep
              simp at this
            · exact h ((List.dropWhile_sublist _).mem htl)

theorem fixGoSt_no_newline (s : Option FormatSettings) :
    ∀ (ls : List Str) (b : Bool) (p : Nat), (∀ l ∈ ls, '\n' ∉ l) →
      ∀ l ∈ (fixGoSt s b p ls).1, '\n' ∉ l := by
  intro ls
  induction ls with
  | nil => intro b p _ l hl; simp [fixGoSt] at hl
  | cons line rest ih =>
    intro b p hall l hl
    have hline : '\n' ∉ line := hall line (List.mem_cons_self _ _)
    have hrest : ∀ l ∈ rest, '\n' ∉ l := fun l hl => hall l (List.mem_cons_of_mem _ hl)
    have hl2 : '\n' ∉ fixIndentation s p (trimRightST line) :=
      no_newline_fixIndentation s p (no_newline_trimRightST hline)
    rw [fixGoSt_cons] at hl
    by_cases hb : trimSpace (fixIndentation s p (trimRightST line)) = []
    · rw [if_pos hb] at hl
      cases b with
      | true => exact ih true p hrest l hl
      | false =>
        simp only [if_neg (by simp : ¬ (false = true))] at hl
        rcases List.mem_cons.mp hl with rfl | hl'
        · exact hl2
        · exact ih true p hrest l hl'
    · rw [if_neg hb] at hl
      rcases List.mem_cons.mp hl with rfl | hl'
      · exact hl2
      · exact ih false _ hrest l hl'

theorem mem_dropTrailingEmpty {l : Str} {ls : List Str} (h : l ∈ dropTrailingEmpty ls) :
    l ∈ ls := by
  unfold dropTrailingEmpty at h
  rw [List.mem_reverse] at h
  exact List.mem_reverse.mp ((List.dropWhile_sublist _).mem h)

/-- C3: the format fix is idempotent — applying the whole fix transformation
(trailing-whitespace trim, indentation-jump reduction, blank-line collapse,
trailing-blank removal, single final newline) twice yields the same byte
content as applying it once, for every raw input. -/
theorem fixWorkflowContent_idempotent (s : Option FormatSettings) (raw : Str) :
    fixWorkflowContent s (fixWorkflowContent s raw) = fixWorkflowContent s raw := by
  unfold fixWorkflowContent fixLines
  by_cases hDnil : dropTrailingEmpty (fixGoSt s false 0 (splitNL raw)).1 = []
  · rw [hDnil]
    have h1 : splitNL ((joinNL [] : Str) ++ ['\n']) = [[], []] := rfl
    rw [h1]
    have e0 : fixIndentation s 0 (trimRightST ([] : Str)) = [] :=
      fixIndentation_blank s 0 (by rfl)
    have h2 : (fixGoSt s false 0 [[], []]).1 = [[]] := by
      rw [fixGoSt_cons, if_pos (by rw [e0]; rfl)]
      simp only [if_neg (by simp : ¬ (false = true))]
      rw [e0]
      have h3 : (fixGoSt s true 0 [([] : Str)]).1 = [] := by
        rw [fixGoSt_cons, if_pos (by rw [e0]; rfl)]
        simp only [if_pos rfl]
        rfl
      rw [h3]
    rw [h2]
    rfl
  · have hnn : ∀ l ∈ dropTrailingEmpty (fixGoSt s false 0 (splitNL raw)).1, '\n' ∉ l := by
      intro l hl
      exact fixGoSt_no_newline s (splitNL raw) false 0 (splitNL_no_newline raw) l
        (mem_dropTrailingEmpty hl)
    rw [splitNL_joinNL_newline _ hDnil hnn]
    have hfixD : (fixGoSt s false 0 (dropTrailingEmpty (fixGoSt s false 0 (splitNL raw)).1)).1 =
        dropTrailingEmpty (fixGoSt s false 0 (splitNL raw)).1 :=
      fixGoSt_dropTrailing s (splitNL raw)
    have happ := fixGoSt_append s (dropTrailingEmpty (fixGoSt s false 0 (splitNL raw)).1)
      false 0 [[]]
    have h2 : (fixGoSt s false 0
        (dropTrailingEmpty (fixGoSt s false 0 (splitNL raw)).1 ++ [[]])).1 =
        dropTrailingEmpty (fixGoSt s false 0 (splitNL raw)).1 ++
          (fixGoSt s
            (fixGoSt s false 0 (dropTrailingEmpty (fixGoSt s false 0 (splitNL raw)).1)).2.1
            (fixGoSt s false 0 (dropTrailingEmpty (fixGoSt s false 0 (splitNL raw)).1)).2.2
            [[]]).1 := by
      rw [happ, hfixD]
    rw [h2]
    have hblanks : ∀ l ∈ (fixGoSt s
        (fixGoSt s false 0 (dropTrailingEmpty (fixGoSt s false 0 (splitNL raw)).1)).2.1
        (fixGoSt s false 0 (dropTrailingEmpty (fixGoSt s false 0 (splitNL raw)).1)).2.2
        [[]]).1, trimSpace l = [] := by
      apply fixGoSt_all_blank
      intro l hl
      simp at hl
      rw [hl]
      rfl
    rw [dropTrailingEmpty_append_blank _ _ hblanks, dropTrailingEmpty_idem]

end GithubCI
